import Mathlib

/-!
Verification of the `ornament` crate: a decorated-text builder consisting of a
recursive decoration tree (`src/decorations.rs`), a `Decorator` builder that
owns the raw text buffer (`src/lib.rs`), and an immutable `Text` output
container (`src/text.rs`).

Modelling conventions:
* Rust `usize` values are `Nat`; `Range<usize>` is passed as two `Nat`s, and
  `range.len()` (which is `end - start`, saturating at zero) is Nat
  subtraction.
* Fallible operations (Rust code that can panic: out-of-bounds `Vec`
  indexing inside `fragment_index_of`, `Vec::splice` with an inverted range,
  out-of-bounds string slicing in `build`) return `Option`, with `none`
  standing for the panic.
* Rust's `keep_start`/`keep_end` return `Option<TextRange>`; since they can
  also panic through `fragment_index_of`, they are modelled as
  `Option (Option (TextRange F))`: the outer layer is the panic, the inner
  layer is the Rust `Option`.
* The raw text buffer (`String` in Rust) is modelled as `List Char`, one
  `Char` per byte; byte offsets become list indices.  (UTF-8 char-boundary
  panics of Rust string slicing are outside the model; every scenario in the
  spec is ASCII.)
* The face type `F` is a parameter with decidable equality (Rust
  `Clone + PartialEq`) and, for the `Decorator`, a distinguished default
  value (Rust `Default`), modelled with `Inhabited`.
-/

mutual

/-- `TextRange` from decorations.rs: either a plain span of a given length
under the enclosing tree's face, or a nested overriding sub-tree. -/
inductive TextRange (F : Type) where
  | Range (len : Nat)
  | Decoration (d : Decorations F)

/-- `Decorations` from decorations.rs: an ambient face plus an ordered list
of fragments. -/
inductive Decorations (F : Type) where
  | mk (face : F) (fragments : List (TextRange F))

end

/-- Accessor for the `face` field of `Decorations`. -/
def Decorations.face {F : Type} : Decorations F → F
  | .mk f _ => f

/-- Accessor for the `fragments` field of `Decorations`. -/
def Decorations.fragments {F : Type} : Decorations F → List (TextRange F)
  | .mk _ frags => frags

/-- `Decorations::new`: a tree with the given ambient face and no fragments. -/
def Decorations.new {F : Type} (face : F) : Decorations F := .mk face []

/-- `Decorations::with_len`: a tree with a single `Range(len)` fragment. -/
def Decorations.with_len {F : Type} (face : F) (len : Nat) : Decorations F :=
  .mk face [.Range len]

mutual

/-- `TextRange::len`. -/
def TextRange.len {F : Type} : TextRange F → Nat
  | .Range n => n
  | .Decoration d => Decorations.len d

/-- `Decorations::len`: the fold summing all fragment lengths. -/
def Decorations.len {F : Type} : Decorations F → Nat
  | .mk _ frags => fragsLen frags

/-- Sum of the lengths of a fragment list (the body of `Decorations::len`). -/
def fragsLen {F : Type} : List (TextRange F) → Nat
  | [] => 0
  | t :: ts => TextRange.len t + fragsLen ts

end

/-- Length of an optional fragment (0 for `None`). -/
def optLen {F : Type} : Option (TextRange F) → Nat
  | none => 0
  | some tr => tr.len

/-- `Decorations::fragment_index_of`, written as recursion on the fragment
list instead of the Rust index loop: the loop accumulates `len` and breaks at
the first fragment whose cumulative length reaches `offset`, returning the
fragment's index and the cumulative length before it.  Walking past the end
of the list (`self.fragments[idx]` with `idx` out of bounds) is a Rust panic,
modelled as `none`. -/
def fioFrags {F : Type} : List (TextRange F) → Nat → Option (Nat × Nat)
  | [], _ => none
  | t :: ts, off =>
    if t.len ≥ off then some (0, 0)
    else (fioFrags ts (off - t.len)).map (fun p => (p.1 + 1, p.2 + t.len))

/-- `Decorations::fragment_index_of` on a tree. -/
def Decorations.fragment_index_of {F : Type} (d : Decorations F) (offset : Nat) :
    Option (Nat × Nat) :=
  fioFrags d.fragments offset

/-- `TextRange::keep_start`: the prefix of a run before `offset`, or `none`
(inner layer) when `offset == 0`.  `d.sliced(0..idx)` is `frags.take idx`.
The outer `Option` layer is the panic from `fragment_index_of`. -/
def TextRange.keep_start {F : Type} : TextRange F → Nat → Option (Option (TextRange F))
  | _, 0 => some none
  | .Decoration (.mk face frags), offset =>
    match fioFrags frags offset with
    | none => none
    | some (idx, idx_offset) =>
      match h2 : frags.get? idx with
      | none => none
      | some frag =>
        match frag.keep_start (offset - idx_offset) with
        | none => none
        | some inner =>
          some (some (.Decoration (.mk face (frags.take idx ++ inner.toList))))
  | .Range _len, offset => some (some (.Range offset))
  decreasing_by
    have hm : frag ∈ frags := List.get?_mem h2
    have := List.sizeOf_lt_of_mem hm
    simp only [TextRange.Decoration.sizeOf_spec, Decorations.mk.sizeOf_spec]
    omega

/-- `TextRange::keep_end`: the suffix of a run from `offset` on, or `none`
(inner layer) when the run's length is at most `offset`.
`d.sliced(idx+1..len)` is `frags.drop (idx+1)`. -/
def TextRange.keep_end {F : Type} (tr : TextRange F) (offset : Nat) :
    Option (Option (TextRange F)) :=
  if tr.len ≤ offset then some none
  else
    match tr with
    | .Decoration (.mk face frags) =>
      match fioFrags frags offset with
      | none => none
      | some (idx, idx_offset) =>
        match h2 : frags.get? idx with
        | none => none
        | some frag =>
          match frag.keep_end (offset - idx_offset) with
          | none => none
          | some inner =>
            some (some (.Decoration (.mk face (inner.toList ++ frags.drop (idx + 1)))))
    | .Range len => some (some (.Range (len - offset)))
  decreasing_by
    have hm : frag ∈ frags := List.get?_mem h2
    have := List.sizeOf_lt_of_mem hm
    simp only [TextRange.Decoration.sizeOf_spec, Decorations.mk.sizeOf_spec]
    omega

/-- The general path of `Decorations::set` (everything after the fast-path
check): build `keep_start` of the start fragment, a fresh nested run of
length `range.len() = re - rs`, `keep_end` of the end fragment, and splice
them over the fragment span `start..=stop`.  `Vec::splice(start..=stop, new)`
removes the drained range and inserts `new` at `start`; it panics (here:
`none`) when `start > stop + 1`, and for `start ≤ stop + 1` the result is
`take start ++ new ++ drop (stop+1)`. -/
def setGeneral {F : Type} (amb : F) (frags : List (TextRange F)) (face : F) (rs re : Nat)
    (start start_offset stop end_offset : Nat) : Option (Decorations F) :=
  if stop + 1 < start then none
  else
    match frags.get? start, frags.get? stop with
    | some fs, some fe =>
      match fs.keep_start (rs - start_offset) with
      | none => none
      | some ks =>
        match fe.keep_end (re - end_offset) with
        | none => none
        | some ke =>
          some (.mk amb (frags.take start ++
            (ks.toList ++ [.Decoration (Decorations.with_len face (re - rs))] ++ ke.toList) ++
            frags.drop (stop + 1)))
    | _, _ => none

/-- `Decorations::set`: resolve both range ends with `fragment_index_of`
(whose failure is the `expect("invalid offset")` panic), take the fast path
when both resolve to the same fragment and that fragment is a nested tree
(note the Rust code recurses with the *unchanged* absolute `range`), and
otherwise take the general splice path. -/
def Decorations.set {F : Type} : Decorations F → F → Nat → Nat → Option (Decorations F)
  | .mk amb frags, face, rs, re =>
    match fioFrags frags rs with
    | none => none
    | some (start, start_offset) =>
      match fioFrags frags re with
      | none => none
      | some (stop, end_offset) =>
        if start = stop then
          match h2 : frags.get? start with
          | some (.Decoration d) =>
            match Decorations.set d face rs re with
            | none => none
            | some d1 => some (.mk amb (frags.set start (.Decoration d1)))
          | _ => setGeneral amb frags face rs re start start_offset stop end_offset
        else setGeneral amb frags face rs re start start_offset stop end_offset
  decreasing_by
    have hm : TextRange.Decoration d ∈ frags := List.get?_mem h2
    have := List.sizeOf_lt_of_mem hm
    simp only [TextRange.Decoration.sizeOf_spec, Decorations.mk.sizeOf_spec] at *
    omega

/-- `Decorations::append`: when the face matches the ambient face, merge into
a trailing `Range` (pop then push) or push a new `Range`; otherwise recurse
into a trailing same-face nested tree, or push a fresh nested tree. -/
def Decorations.append {F : Type} [DecidableEq F] : Decorations F → F → Nat → Decorations F
  | .mk amb frags, face, len =>
    if amb = face then
      match frags.getLast? with
      | some (.Range old) => .mk amb (frags.dropLast ++ [.Range (old + len)])
      | _ => .mk amb (frags ++ [.Range len])
    else
      match h2 : frags.getLast? with
      | some (.Decoration d) =>
        if d.face = face then
          .mk amb (frags.dropLast ++ [.Decoration (Decorations.append d face len)])
        else .mk amb (frags ++ [.Decoration (Decorations.with_len face len)])
      | _ => .mk amb (frags ++ [.Decoration (Decorations.with_len face len)])
  decreasing_by
    have hm : TextRange.Decoration d ∈ frags := by
      obtain ⟨h0, heq⟩ := List.mem_getLast?_eq_getLast (l := frags) h2
      exact heq ▸ List.getLast_mem h0
    have := List.sizeOf_lt_of_mem hm
    simp only [TextRange.Decoration.sizeOf_spec, Decorations.mk.sizeOf_spec] at *
    omega

mutual

/-- `Decorations::flatten`: in-order traversal producing `(face, length)`
runs; `Range` fragments contribute the ambient face. -/
def Decorations.flatten {F : Type} : Decorations F → List (F × Nat)
  | .mk amb frags => fragsFlatten amb frags

/-- Body of the `flatten` loop over a fragment list with ambient face `amb`. -/
def fragsFlatten {F : Type} : F → List (TextRange F) → List (F × Nat)
  | _, [] => []
  | amb, .Range n :: ts => (amb, n) :: fragsFlatten amb ts
  | amb, .Decoration d :: ts => Decorations.flatten d ++ fragsFlatten amb ts

end

/-- Sum of the lengths of a flattened run list. -/
def sumLens {F : Type} (l : List (F × Nat)) : Nat :=
  (l.map Prod.snd).sum

/-- `TextFragment` from text.rs. -/
structure TextFragment (F : Type) where
  text : List Char
  face : F

/-- `Text` from text.rs: a list of `TextFragment`. -/
structure Text (F : Type) where
  fragments : List (TextFragment F)

/-- `Text::text_len`: fold summing the byte lengths of the fragments. -/
def Text.text_len {F : Type} (t : Text F) : Nat :=
  t.fragments.foldl (fun acc x => acc + x.text.length) 0

/-- `Text::render`: map the decorator over the fragments and join. -/
def Text.render {F : Type} (t : Text F) (g : TextFragment F → List Char) : List Char :=
  (t.fragments.map g).flatten

/-- `Text::plain`: fold concatenating the fragment texts. -/
def Text.plain {F : Type} (t : Text F) : List Char :=
  t.fragments.foldl (fun acc x => acc ++ x.text) []

/-- `Decorator` from lib.rs. -/
structure Decorator (F : Type) where
  text : List Char
  current_face : F
  decorations : Decorations F

/-- `Decorator::new`. -/
def Decorator.new {F : Type} [Inhabited F] : Decorator F :=
  { text := [], current_face := default, decorations := Decorations.new default }

/-- `Decorator::set_face`. -/
def Decorator.set_face {F : Type} (d : Decorator F) (face : F) : Decorator F :=
  { d with current_face := face }

/-- `Decorator::reset_face`. -/
def Decorator.reset_face {F : Type} [Inhabited F] (d : Decorator F) : Decorator F :=
  d.set_face default

/-- `Decorator::append`: concatenate onto the buffer and append the text's
length under the current face. -/
def Decorator.append {F : Type} [DecidableEq F] (d : Decorator F) (s : List Char) :
    Decorator F :=
  { d with
    text := d.text ++ s
    decorations := d.decorations.append d.current_face s.length }

/-- `Decorator::with_text`. -/
def Decorator.with_text {F : Type} [DecidableEq F] [Inhabited F] (s : List Char) :
    Decorator F :=
  Decorator.new.append s

/-- `Decorator::set`: `max(range.start, 0)..min(range.end, decorations.len())`
then delegate to the tree (`max _ 0` is the identity on `usize`/`Nat`). -/
def Decorator.set {F : Type} (d : Decorator F) (face : F) (rs re : Nat) :
    Option (Decorator F) :=
  match d.decorations.set face (max rs 0) (min re d.decorations.len) with
  | none => none
  | some dec => some { d with decorations := dec }

/-- The slicing loop of `Decorator::build`: for each `(face, len)` run, slice
`text[acc..acc+len]` (a panic — `none` — when the slice exceeds the buffer)
and advance `acc` by `len`. -/
def buildFrags {F : Type} (text : List Char) : List (F × Nat) → Nat → Option (List (TextFragment F))
  | [], _ => some []
  | (face, len) :: rest, acc =>
    if acc + len ≤ text.length then
      match buildFrags text rest (acc + len) with
      | none => none
      | some tfs => some ({ text := (text.drop acc).take len, face := face } :: tfs)
    else none

/-- `Decorator::build`: flatten the tree and slice the buffer at the
cumulative offsets. -/
def Decorator.build {F : Type} (d : Decorator F) : Option (Text F) :=
  (buildFrags d.text d.decorations.flatten 0).map Text.mk

/-- A single tree-level operation, for stating properties of operation
sequences on a `Decorations` tree. -/
inductive Op (F : Type) where
  | append (face : F) (len : Nat)
  | set (face : F) (start stop : Nat)

/-- Run a sequence of tree operations; a panicking `set` aborts the run. -/
def runOps {F : Type} [DecidableEq F] : Decorations F → List (Op F) → Option (Decorations F)
  | t, [] => some t
  | t, .append f n :: ops => runOps (t.append f n) ops
  | t, .set f s e :: ops =>
    match t.set f s e with
    | none => none
    | some t' => runOps t' ops

/-- Total length appended by a sequence of tree operations. -/
def appendSum {F : Type} : List (Op F) → Nat
  | [] => 0
  | .append _ n :: ops => n + appendSum ops
  | .set _ _ _ :: ops => appendSum ops

/-- Every `set` in the sequence has an in-bounds range (`start ≤ end ≤`
current tree length) at the moment it executes. -/
def okBounds {F : Type} [DecidableEq F] : Decorations F → List (Op F) → Bool
  | _, [] => true
  | t, .append f n :: ops => okBounds (t.append f n) ops
  | t, .set f s e :: ops =>
    decide (s ≤ e) && decide (e ≤ t.len) &&
      (match t.set f s e with
       | none => true
       | some t' => okBounds t' ops)

/-- A single builder-level operation on a `Decorator`. -/
inductive DOp (F : Type) where
  | append (text : List Char)
  | set_face (face : F)
  | reset_face
  | set (face : F) (start stop : Nat)

/-- Run a sequence of builder operations; a panicking `set` aborts the run. -/
def Decorator.run {F : Type} [DecidableEq F] [Inhabited F] :
    Decorator F → List (DOp F) → Option (Decorator F)
  | d, [] => some d
  | d, .append s :: ops => Decorator.run (d.append s) ops
  | d, .set_face f :: ops => Decorator.run (d.set_face f) ops
  | d, .reset_face :: ops => Decorator.run d.reset_face ops
  | d, .set f s e :: ops =>
    match d.set f s e with
    | none => none
    | some d' => Decorator.run d' ops

/-- Concatenation of all text appended by a sequence of builder operations. -/
def appendedText {F : Type} : List (DOp F) → List Char
  | [] => []
  | .append s :: ops => s ++ appendedText ops
  | .set_face _ :: ops => appendedText ops
  | .reset_face :: ops => appendedText ops
  | .set _ _ _ :: ops => appendedText ops

/-- The face type used by the spec's scenarios (lib.rs doctest and tests). -/
inductive Face where
  | Default
  | Emphasis
  | Strong
  | Star
  | Pipe
  deriving DecidableEq

instance : Inhabited Face := ⟨Face.Default⟩

/-! ## Basic lemmas about the embedding -/

/-- Structural induction principle covering the mutual/nested shape of the
tree, instantiating the auto-generated recursor. -/
theorem Decorations.triple_ind {F : Type} {P : TextRange F → Prop} {Q : Decorations F → Prop}
    {L : List (TextRange F) → Prop}
    (hR : ∀ n, P (.Range n))
    (hD : ∀ d, Q d → P (.Decoration d))
    (hM : ∀ f l, L l → Q (.mk f l))
    (hnil : L [])
    (hcons : ∀ t l, P t → L l → L (t :: l)) :
    ∀ d : Decorations F, Q d :=
  fun d => @Decorations.rec F P Q L hR hD hM hnil hcons d

theorem fragsLen_append {F : Type} (l1 l2 : List (TextRange F)) :
    fragsLen (l1 ++ l2) = fragsLen l1 + fragsLen l2 := by
  induction l1 with
  | nil => simp [fragsLen]
  | cons t ts ih => simp [fragsLen, ih]; omega

theorem fragsLen_take_succ {F : Type} {frags : List (TextRange F)} {i : Nat}
    {tr : TextRange F} (h : frags.get? i = some tr) :
    fragsLen (frags.take (i + 1)) = fragsLen (frags.take i) + tr.len := by
  have h' : frags[i]? = some tr := by rw [← List.get?_eq_getElem?]; exact h
  rw [List.take_succ, h']
  simp [fragsLen_append, fragsLen]

theorem fragsLen_take_le_self {F : Type} : ∀ (l : List (TextRange F)) (i : Nat),
    fragsLen (l.take i) ≤ fragsLen l := by
  intro l
  induction l with
  | nil => intro i; simp
  | cons t ts ih =>
    intro i
    cases i with
    | zero => simp [fragsLen]
    | succ i' =>
      simp only [List.take_succ_cons, fragsLen]
      have := ih i'
      omega

theorem fragsLen_take_le {F : Type} (frags : List (TextRange F)) (i j : Nat) (h : i ≤ j) :
    fragsLen (frags.take i) ≤ fragsLen (frags.take j) := by
  have : frags.take i = (frags.take j).take i := by
    rw [List.take_take, Nat.min_eq_left h]
  rw [this]
  exact fragsLen_take_le_self (frags.take j) i

theorem fragsLen_take_add_drop {F : Type} (frags : List (TextRange F)) (i : Nat) :
    fragsLen (frags.take i) + fragsLen (frags.drop i) = fragsLen frags := by
  rw [← fragsLen_append, List.take_append_drop]

/-- Specification of `fioFrags` on success: the returned offset is the prefix
sum before the returned index, it does not exceed the queried offset, the
indexed fragment reaches the queried offset, and every earlier fragment's
cumulative end falls short of it. -/
theorem fio_spec {F : Type} : ∀ (frags : List (TextRange F)) (off i o : Nat),
    fioFrags frags off = some (i, o) →
    ∃ tr, frags.get? i = some tr ∧ o = fragsLen (frags.take i) ∧ o ≤ off ∧
      off ≤ o + tr.len ∧ ∀ j, j < i → fragsLen (frags.take (j + 1)) < off := by
  intro frags
  induction frags with
  | nil => intro off i o h; simp [fioFrags] at h
  | cons t ts ih =>
    intro off i o h
    simp only [fioFrags] at h
    split at h
    · rename_i hge
      injection h with h'
      injection h' with hi ho
      subst hi; subst ho
      refine ⟨t, rfl, by simp [fragsLen], by omega, by omega, ?_⟩
      intro j hj; omega
    · rename_i hlt
      have hlt' : t.len < off := by omega
      cases hrec : fioFrags ts (off - t.len) with
      | none => rw [hrec] at h; simp at h
      | some p =>
        obtain ⟨i', o'⟩ := p
        rw [hrec] at h
        simp only [Option.map_some'] at h
        injection h with h'
        injection h' with hi ho
        subst hi; subst ho
        obtain ⟨tr, hget, ho, hle, hreach, hbefore⟩ := ih (off - t.len) i' o' hrec
        refine ⟨tr, by simpa using hget, ?_, by omega, by omega, ?_⟩
        · simp [List.take_succ_cons, fragsLen, ho]; omega
        · intro j hj
          cases j with
          | zero => simp [fragsLen]; omega
          | succ j' =>
            have := hbefore j' (by omega)
            simp [List.take_succ_cons, fragsLen]
            omega

/-- `fioFrags` stops exactly at a fragment whose cumulative span first
reaches the offset. -/
theorem fio_stops {F : Type} : ∀ (pre : List (TextRange F)) (x : TextRange F)
    (rest : List (TextRange F)) (off : Nat),
    (∀ j, j < pre.length → fragsLen (pre.take (j + 1)) < off) →
    off ≤ fragsLen pre + x.len →
    fioFrags (pre ++ x :: rest) off = some (pre.length, fragsLen pre) := by
  intro pre
  induction pre with
  | nil =>
    intro x rest off _ hle
    simp only [fragsLen] at hle
    simp [fioFrags, fragsLen, show x.len ≥ off by omega]
  | cons p ps ih =>
    intro x rest off hj hle
    have h0 : p.len < off := by
      have := hj 0 (by simp)
      simpa [fragsLen] using this
    simp only [List.cons_append, fioFrags, show ¬(p.len ≥ off) by omega, if_false,
      List.append_eq]
    rw [ih x rest (off - p.len) ?_ ?_]
    · simp [fragsLen]; omega
    · intro j hjlen
      have := hj (j + 1) (by simpa using Nat.succ_lt_succ hjlen)
      simp only [List.take_succ_cons, fragsLen] at this
      omega
    · simp only [fragsLen] at hle
      omega

/-- `fioFrags` only looks at fragment lengths: replacing a fragment by one of
equal length does not change it. -/
theorem fio_set_congr {F : Type} : ∀ (frags : List (TextRange F)) (i : Nat)
    (a b : TextRange F) (off : Nat), frags.get? i = some a → b.len = a.len →
    fioFrags (frags.set i b) off = fioFrags frags off := by
  intro frags
  induction frags with
  | nil => intro i a b off h; simp at h
  | cons t ts ih =>
    intro i a b off hget hlen
    cases i with
    | zero =>
      obtain rfl : t = a := by simpa using hget
      simp [List.set_cons_zero, fioFrags, hlen]
    | succ i' =>
      simp only [List.get?_cons_succ] at hget
      simp [List.set_cons_succ, fioFrags, ih i' a b (off - t.len) hget hlen]

/-! ## Unfolding lemmas for the recursively defined operations -/

theorem keep_start_zero {F : Type} (tr : TextRange F) : tr.keep_start 0 = some none := by
  cases tr with
  | Range n => rw [TextRange.keep_start]
  | Decoration d => cases d with | mk f frags => rw [TextRange.keep_start]

theorem keep_start_range {F : Type} (n k : Nat) :
    (TextRange.Range (F := F) n).keep_start (k + 1) = some (some (.Range (k + 1))) := by
  rw [TextRange.keep_start]
  omega

theorem keep_start_dec_fio_none {F : Type} (face : F) (frags : List (TextRange F)) (k : Nat)
    (hf : fioFrags frags (k + 1) = none) :
    (TextRange.Decoration (.mk face frags)).keep_start (k + 1) = none := by
  rw [TextRange.keep_start]
  · simp [hf]
  · omega

theorem keep_start_dec_panic {F : Type} (face : F) (frags : List (TextRange F))
    (k idx idx_offset : Nat) (frag : TextRange F)
    (hf : fioFrags frags (k + 1) = some (idx, idx_offset))
    (hg : frags.get? idx = some frag)
    (hk : frag.keep_start (k + 1 - idx_offset) = none) :
    (TextRange.Decoration (.mk face frags)).keep_start (k + 1) = none := by
  rw [TextRange.keep_start]
  · simp only [hf]
    split
    · rfl
    · rename_i frag' heq
      rw [hg] at heq
      injection heq with heq'
      subst heq'
      rw [hk]
  · omega

theorem keep_start_dec_ok {F : Type} (face : F) (frags : List (TextRange F))
    (k idx idx_offset : Nat) (frag : TextRange F) (inner : Option (TextRange F))
    (hf : fioFrags frags (k + 1) = some (idx, idx_offset))
    (hg : frags.get? idx = some frag)
    (hk : frag.keep_start (k + 1 - idx_offset) = some inner) :
    (TextRange.Decoration (.mk face frags)).keep_start (k + 1) =
      some (some (.Decoration (.mk face (frags.take idx ++ inner.toList)))) := by
  rw [TextRange.keep_start]
  · simp only [hf]
    split
    · rename_i heq
      rw [heq] at hg
      exact Option.noConfusion hg
    · rename_i frag' heq
      rw [hg] at heq
      injection heq with heq'
      subst heq'
      rw [hk]
  · omega

theorem keep_end_high {F : Type} (tr : TextRange F) (off : Nat) (h : tr.len ≤ off) :
    tr.keep_end off = some none := by
  rw [TextRange.keep_end.eq_def]
  simp [h]

theorem keep_end_range {F : Type} (n off : Nat) (h : ¬ n ≤ off) :
    (TextRange.Range (F := F) n).keep_end off = some (some (.Range (n - off))) := by
  rw [TextRange.keep_end.eq_def]
  simp only [TextRange.len] at *
  simp [h]

theorem keep_end_dec_fio_none {F : Type} (face : F) (frags : List (TextRange F)) (off : Nat)
    (hlen : ¬ (TextRange.Decoration (.mk face frags)).len ≤ off)
    (hf : fioFrags frags off = none) :
    (TextRange.Decoration (.mk face frags)).keep_end off = none := by
  rw [TextRange.keep_end.eq_def]
  simp [hlen, hf]

theorem keep_end_dec_panic {F : Type} (face : F) (frags : List (TextRange F))
    (off idx idx_offset : Nat) (frag : TextRange F)
    (hlen : ¬ (TextRange.Decoration (.mk face frags)).len ≤ off)
    (hf : fioFrags frags off = some (idx, idx_offset))
    (hg : frags.get? idx = some frag)
    (hk : frag.keep_end (off - idx_offset) = none) :
    (TextRange.Decoration (.mk face frags)).keep_end off = none := by
  rw [TextRange.keep_end.eq_def]
  simp only [hlen, if_false, hf]
  split
  · rfl
  · rename_i frag' heq
    rw [hg] at heq
    injection heq with heq'
    subst heq'
    rw [hk]

theorem keep_end_dec_ok {F : Type} (face : F) (frags : List (TextRange F))
    (off idx idx_offset : Nat) (frag : TextRange F) (inner : Option (TextRange F))
    (hlen : ¬ (TextRange.Decoration (.mk face frags)).len ≤ off)
    (hf : fioFrags frags off = some (idx, idx_offset))
    (hg : frags.get? idx = some frag)
    (hk : frag.keep_end (off - idx_offset) = some inner) :
    (TextRange.Decoration (.mk face frags)).keep_end off =
      some (some (.Decoration (.mk face (inner.toList ++ frags.drop (idx + 1))))) := by
  rw [TextRange.keep_end.eq_def]
  simp only [hlen, if_false, hf]
  split
  · rename_i heq
    rw [heq] at hg
    exact Option.noConfusion hg
  · rename_i frag' heq
    rw [hg] at heq
    injection heq with heq'
    subst heq'
    rw [hk]

theorem set_fio_rs_none {F : Type} (amb face : F) (frags : List (TextRange F)) (rs re : Nat)
    (hf : fioFrags frags rs = none) :
    (Decorations.mk amb frags).set face rs re = none := by
  rw [Decorations.set]
  simp [hf]

theorem set_fio_re_none {F : Type} (amb face : F) (frags : List (TextRange F))
    (rs re start start_offset : Nat)
    (hf1 : fioFrags frags rs = some (start, start_offset))
    (hf2 : fioFrags frags re = none) :
    (Decorations.mk amb frags).set face rs re = none := by
  rw [Decorations.set]
  simp [hf1, hf2]

theorem set_ne_general {F : Type} (amb face : F) (frags : List (TextRange F))
    (rs re start start_offset stop end_offset : Nat)
    (hf1 : fioFrags frags rs = some (start, start_offset))
    (hf2 : fioFrags frags re = some (stop, end_offset))
    (hne : start ≠ stop) :
    (Decorations.mk amb frags).set face rs re =
      setGeneral amb frags face rs re start start_offset stop end_offset := by
  rw [Decorations.set]
  simp [hf1, hf2, hne]

theorem set_eq_not_dec_general {F : Type} (amb face : F) (frags : List (TextRange F))
    (rs re start start_offset end_offset : Nat)
    (hf1 : fioFrags frags rs = some (start, start_offset))
    (hf2 : fioFrags frags re = some (start, end_offset))
    (hnd : ∀ d, frags.get? start ≠ some (.Decoration d)) :
    (Decorations.mk amb frags).set face rs re =
      setGeneral amb frags face rs re start start_offset start end_offset := by
  rw [Decorations.set]
  simp only [hf1, hf2, if_true]

theorem set_fast_panic {F : Type} (amb face : F) (frags : List (TextRange F))
    (rs re start start_offset end_offset : Nat) (d : Decorations F)
    (hf1 : fioFrags frags rs = some (start, start_offset))
    (hf2 : fioFrags frags re = some (start, end_offset))
    (hg : frags.get? start = some (.Decoration d))
    (hrec : d.set face rs re = none) :
    (Decorations.mk amb frags).set face rs re = none := by
  rw [Decorations.set]
  simp only [hf1, hf2, if_true]
  split
  · rename_i d' heq
    rw [hg] at heq
    injection heq with heq'
    injection heq' with heq''
    subst heq''
    rw [hrec]
  · rename_i hwild
    exact absurd hg (fun h => hwild _ h)

theorem set_fast_ok {F : Type} (amb face : F) (frags : List (TextRange F))
    (rs re start start_offset end_offset : Nat) (d d1 : Decorations F)
    (hf1 : fioFrags frags rs = some (start, start_offset))
    (hf2 : fioFrags frags re = some (start, end_offset))
    (hg : frags.get? start = some (.Decoration d))
    (hrec : d.set face rs re = some d1) :
    (Decorations.mk amb frags).set face rs re =
      some (.mk amb (frags.set start (.Decoration d1))) := by
  rw [Decorations.set]
  simp only [hf1, hf2, if_true]
  split
  · rename_i d' heq
    rw [hg] at heq
    injection heq with heq'
    injection heq' with heq''
    subst heq''
    rw [hrec]
  · rename_i hwild
    exact absurd hg (fun h => hwild _ h)

theorem append_same_last_range {F : Type} [DecidableEq F] (amb : F) (frags : List (TextRange F))
    (len old : Nat) (hl : frags.getLast? = some (.Range old)) :
    (Decorations.mk amb frags).append amb len =
      .mk amb (frags.dropLast ++ [.Range (old + len)]) := by
  rw [Decorations.append]
  simp only [eq_self_iff_true, if_true, hl]

theorem append_same_other {F : Type} [DecidableEq F] (amb : F) (frags : List (TextRange F))
    (len : Nat) (hl : ∀ old, frags.getLast? ≠ some (.Range old)) :
    (Decorations.mk amb frags).append amb len = .mk amb (frags ++ [.Range len]) := by
  rw [Decorations.append]
  simp only [eq_self_iff_true, if_true]

theorem append_diff_dec_same {F : Type} [DecidableEq F] (amb face : F)
    (frags : List (TextRange F)) (len : Nat) (d : Decorations F)
    (hne : amb ≠ face) (hl : frags.getLast? = some (.Decoration d)) (hd : d.face = face) :
    (Decorations.mk amb frags).append face len =
      .mk amb (frags.dropLast ++ [.Decoration (d.append face len)]) := by
  rw [Decorations.append]
  simp only [if_neg hne]
  split
  · rename_i d' heq
    rw [hl] at heq
    injection heq with heq'
    injection heq' with heq''
    subst heq''
    simp only [if_pos hd]
  · rename_i hwild
    exact absurd hl (fun h => hwild _ h)

theorem append_diff_dec_other {F : Type} [DecidableEq F] (amb face : F)
    (frags : List (TextRange F)) (len : Nat) (d : Decorations F)
    (hne : amb ≠ face) (hl : frags.getLast? = some (.Decoration d)) (hd : ¬ d.face = face) :
    (Decorations.mk amb frags).append face len =
      .mk amb (frags ++ [.Decoration (Decorations.with_len face len)]) := by
  rw [Decorations.append]
  simp only [if_neg hne]
  split
  · rename_i d' heq
    rw [hl] at heq
    injection heq with heq'
    injection heq' with heq''
    subst heq''
    simp only [if_neg hd]
  · rename_i hwild
    exact absurd hl (fun h => hwild _ h)

theorem append_diff_other {F : Type} [DecidableEq F] (amb face : F)
    (frags : List (TextRange F)) (len : Nat)
    (hne : amb ≠ face) (hl : ∀ d, frags.getLast? ≠ some (.Decoration d)) :
    (Decorations.mk amb frags).append face len =
      .mk amb (frags ++ [.Decoration (Decorations.with_len face len)]) := by
  rw [Decorations.append]
  simp only [if_neg hne]

theorem append_face {F : Type} [DecidableEq F] (t : Decorations F) (face : F) (len : Nat) :
    (t.append face len).face = t.face := by
  cases t with
  | mk amb frags =>
    rw [Decorations.append]
    split
    · split <;> rfl
    · split
      · split <;> rfl
      · rfl

/-! ## Length preservation lemmas -/

theorem fragsLen_toList {F : Type} (r : Option (TextRange F)) :
    fragsLen r.toList = optLen r := by
  cases r <;> simp [optLen, fragsLen, Option.toList]

theorem keep_start_len {F : Type} : ∀ (n : Nat) (tr : TextRange F), sizeOf tr ≤ n →
    ∀ (off : Nat) (r : Option (TextRange F)), tr.keep_start off = some r → optLen r = off := by
  intro n
  induction n with
  | zero =>
    intro tr hsz
    exfalso
    cases tr with
    | Range m => simp only [TextRange.Range.sizeOf_spec] at hsz; omega
    | Decoration d => simp only [TextRange.Decoration.sizeOf_spec] at hsz; omega
  | succ n ih =>
    intro tr hsz off r hks
    cases off with
    | zero =>
      rw [keep_start_zero] at hks
      injection hks with h
      subst h
      rfl
    | succ k =>
      cases tr with
      | Range m =>
        rw [keep_start_range] at hks
        injection hks with h
        subst h
        rfl
      | Decoration d =>
        cases d with
        | mk face frags =>
          cases hf : fioFrags frags (k + 1) with
          | none => rw [keep_start_dec_fio_none face frags k hf] at hks; cases hks
          | some p =>
            obtain ⟨idx, idx_offset⟩ := p
            obtain ⟨frag, hget, ho, holb, hreach, _⟩ := fio_spec frags (k + 1) idx idx_offset hf
            cases hk : frag.keep_start (k + 1 - idx_offset) with
            | none =>
              rw [keep_start_dec_panic face frags k idx idx_offset frag hf hget hk] at hks
              cases hks
            | some inner =>
              rw [keep_start_dec_ok face frags k idx idx_offset frag inner hf hget hk] at hks
              injection hks with h
              subst h
              have hfragsz : sizeOf frag ≤ n := by
                have h1 := List.sizeOf_lt_of_mem (List.get?_mem hget)
                simp only [TextRange.Decoration.sizeOf_spec, Decorations.mk.sizeOf_spec] at hsz
                omega
              have hinner := ih frag hfragsz (k + 1 - idx_offset) inner hk
              simp only [optLen, TextRange.len, Decorations.len]
              rw [fragsLen_append, fragsLen_toList]
              omega

theorem keep_end_len {F : Type} : ∀ (n : Nat) (tr : TextRange F), sizeOf tr ≤ n →
    ∀ (off : Nat) (r : Option (TextRange F)), tr.keep_end off = some r →
    optLen r = tr.len - off := by
  intro n
  induction n with
  | zero =>
    intro tr hsz
    exfalso
    cases tr with
    | Range m => simp only [TextRange.Range.sizeOf_spec] at hsz; omega
    | Decoration d => simp only [TextRange.Decoration.sizeOf_spec] at hsz; omega
  | succ n ih =>
    intro tr hsz off r hke
    by_cases hhigh : tr.len ≤ off
    · rw [keep_end_high tr off hhigh] at hke
      injection hke with h
      subst h
      simp only [optLen]
      omega
    · cases tr with
      | Range m =>
        rw [keep_end_range m off (by simpa [TextRange.len] using hhigh)] at hke
        injection hke with h
        subst h
        simp [optLen, TextRange.len]
      | Decoration d =>
        cases d with
        | mk face frags =>
          cases hf : fioFrags frags off with
          | none => rw [keep_end_dec_fio_none face frags off hhigh hf] at hke; cases hke
          | some p =>
            obtain ⟨idx, idx_offset⟩ := p
            obtain ⟨frag, hget, ho, holb, hreach, _⟩ := fio_spec frags off idx idx_offset hf
            cases hk : frag.keep_end (off - idx_offset) with
            | none =>
              rw [keep_end_dec_panic face frags off idx idx_offset frag hhigh hf hget hk] at hke
              cases hke
            | some inner =>
              rw [keep_end_dec_ok face frags off idx idx_offset frag inner hhigh hf hget hk] at hke
              injection hke with h
              subst h
              have hfragsz : sizeOf frag ≤ n := by
                have h1 := List.sizeOf_lt_of_mem (List.get?_mem hget)
                simp only [TextRange.Decoration.sizeOf_spec, Decorations.mk.sizeOf_spec] at hsz
                omega
              have hinner := ih frag hfragsz (off - idx_offset) inner hk
              have hts := fragsLen_take_succ hget
              have htd := fragsLen_take_add_drop frags (idx + 1)
              simp only [TextRange.len, Decorations.len] at hhigh
              simp only [optLen, TextRange.len, Decorations.len]
              rw [fragsLen_append, fragsLen_toList]
              omega

theorem fio_mono {F : Type} : ∀ (frags : List (TextRange F)) (a b ia oa ib ob : Nat),
    a ≤ b → fioFrags frags a = some (ia, oa) → fioFrags frags b = some (ib, ob) →
    ia ≤ ib ∧ oa ≤ ob := by
  intro frags
  induction frags with
  | nil => intro a b ia oa ib ob _ ha; simp [fioFrags] at ha
  | cons t ts ih =>
    intro a b ia oa ib ob hab ha hb
    simp only [fioFrags] at ha hb
    by_cases hba : t.len ≥ b
    · rw [if_pos (by omega : t.len ≥ a)] at ha
      rw [if_pos hba] at hb
      injection ha with ha'; injection hb with hb'
      injection ha' with h1 h2; injection hb' with h3 h4
      omega
    · rw [if_neg hba] at hb
      cases hrecb : fioFrags ts (b - t.len) with
      | none => rw [hrecb] at hb; simp at hb
      | some pb =>
        obtain ⟨ib', ob'⟩ := pb
        rw [hrecb] at hb
        simp only [Option.map_some'] at hb
        injection hb with hb'
        injection hb' with h3 h4
        by_cases haa : t.len ≥ a
        · rw [if_pos haa] at ha
          injection ha with ha'
          injection ha' with h1 h2
          omega
        · rw [if_neg haa] at ha
          cases hreca : fioFrags ts (a - t.len) with
          | none => rw [hreca] at ha; simp at ha
          | some pa =>
            obtain ⟨ia', oa'⟩ := pa
            rw [hreca] at ha
            simp only [Option.map_some'] at ha
            injection ha with ha'
            injection ha' with h1 h2
            have := ih (a - t.len) (b - t.len) ia' oa' ib' ob' (by omega) hreca hrecb
            omega

theorem fragsLen_set {F : Type} : ∀ (frags : List (TextRange F)) (i : Nat)
    (a b : TextRange F), frags.get? i = some a →
    fragsLen (frags.set i b) + a.len = fragsLen frags + b.len := by
  intro frags
  induction frags with
  | nil => intro i a b h; simp at h
  | cons t ts ih =>
    intro i a b hget
    cases i with
    | zero =>
      obtain rfl : t = a := by simpa using hget
      simp [List.set_cons_zero, fragsLen]
      omega
    | succ i' =>
      simp only [List.get?_cons_succ] at hget
      have := ih i' a b hget
      simp only [List.set_cons_succ, fragsLen]
      omega

/-- Length accounting for the general splice path of `set`: whenever it
returns, the new fragment list's length is the old one plus the excess
`rs - re` of an inverted range (`0` for a well-ordered range). -/
theorem setGeneral_len {F : Type} (amb face : F) (frags : List (TextRange F))
    (rs re start so stop eo : Nat) (t' : Decorations F)
    (hf1 : fioFrags frags rs = some (start, so))
    (hf2 : fioFrags frags re = some (stop, eo))
    (h : setGeneral amb frags face rs re start so stop eo = some t') :
    t'.len = fragsLen frags + (rs - re) := by
  obtain ⟨fs, hgs, hso, hsolb, hsreach, _⟩ := fio_spec frags rs start so hf1
  obtain ⟨fe, hge, heo, heolb, hereach, _⟩ := fio_spec frags re stop eo hf2
  rw [setGeneral] at h
  split at h
  · cases h
  · rename_i hguard
    simp only [hgs, hge] at h
    cases hks : fs.keep_start (rs - so) with
    | none => rw [hks] at h; cases h
    | some ks =>
      rw [hks] at h
      cases hke : fe.keep_end (re - eo) with
      | none => rw [hke] at h; cases h
      | some ke =>
        rw [hke] at h
        injection h with h'
        subst h'
        have hkslen : optLen ks = rs - so := keep_start_len (sizeOf fs) fs le_rfl _ ks hks
        have hkelen : optLen ke = fe.len - (re - eo) := keep_end_len (sizeOf fe) fe le_rfl _ ke hke
        have hts : fragsLen (frags.take (stop + 1)) = fragsLen (frags.take stop) + fe.len :=
          fragsLen_take_succ hge
        have htd := fragsLen_take_add_drop frags (stop + 1)
        have hmono : (rs ≤ re ∧ start ≤ stop ∧ so ≤ eo) ∨ (re < rs ∧ stop ≤ start ∧ eo ≤ so) := by
          rcases Nat.le_total rs re with hc | hc
          · exact Or.inl ⟨hc, (fio_mono frags rs re start so stop eo hc hf1 hf2).1,
              (fio_mono frags rs re start so stop eo hc hf1 hf2).2⟩
          · rcases Nat.lt_or_ge re rs with hc' | hc'
            · exact Or.inr ⟨hc', (fio_mono frags re rs stop eo start so (by omega) hf2 hf1).1,
                (fio_mono frags re rs stop eo start so (by omega) hf2 hf1).2⟩
            · have heq : rs = re := by omega
              subst heq
              exact Or.inl ⟨le_rfl, (fio_mono frags rs rs start so stop eo le_rfl hf1 hf2).1,
                (fio_mono frags rs rs start so stop eo le_rfl hf1 hf2).2⟩
        simp only [Decorations.len, fragsLen_append, fragsLen_toList, fragsLen,
          Decorations.with_len, TextRange.len]
        rcases hmono with ⟨hc1, hc2, hc3⟩ | ⟨hc1, hc2, hc3⟩
        · have := fragsLen_take_le frags start stop hc2
          omega
        · rcases Nat.lt_or_ge start (stop + 1) with hc4 | hc4
          · have := fragsLen_take_le frags start stop (by omega)
            omega
          · have hse : start = stop + 1 := by omega
            have : fragsLen (frags.take start) = fragsLen (frags.take (stop + 1)) := by rw [hse]
            omega

/-- Master length lemma for `set`: whenever `set` returns normally, the new
tree's length is the old one plus `rs - re` (which is `0` whenever
`rs ≤ re`). -/
theorem set_len {F : Type} : ∀ (n : Nat) (t : Decorations F), sizeOf t ≤ n →
    ∀ (face : F) (rs re : Nat) (t' : Decorations F),
    t.set face rs re = some t' → t'.len = t.len + (rs - re) := by
  intro n
  induction n with
  | zero =>
    intro t hsz
    exfalso
    cases t with
    | mk f frags => simp only [Decorations.mk.sizeOf_spec] at hsz; omega
  | succ n ih =>
    intro t hsz face rs re t' hset
    cases t with
    | mk amb frags =>
      cases hf1 : fioFrags frags rs with
      | none => rw [set_fio_rs_none amb face frags rs re hf1] at hset; cases hset
      | some p1 =>
        obtain ⟨start, so⟩ := p1
        cases hf2 : fioFrags frags re with
        | none => rw [set_fio_re_none amb face frags rs re start so hf1 hf2] at hset; cases hset
        | some p2 =>
          obtain ⟨stop, eo⟩ := p2
          by_cases hss : start = stop
          · subst hss
            obtain ⟨fs, hgs, _, _, _, _⟩ := fio_spec frags rs start so hf1
            cases fs with
            | Range m =>
              rw [set_eq_not_dec_general amb face frags rs re start so eo hf1 hf2
                (fun d hd => by rw [hgs] at hd; cases hd)] at hset
              have := setGeneral_len amb face frags rs re start so start eo t' hf1 hf2 hset
              simpa [Decorations.len] using this
            | Decoration d =>
              cases hrec : d.set face rs re with
              | none =>
                rw [set_fast_panic amb face frags rs re start so eo d hf1 hf2 hgs hrec] at hset
                cases hset
              | some d1 =>
                rw [set_fast_ok amb face frags rs re start so eo d d1 hf1 hf2 hgs hrec] at hset
                injection hset with h'
                subst h'
                have hdsz : sizeOf d ≤ n := by
                  have h1 := List.sizeOf_lt_of_mem (List.get?_mem hgs)
                  simp only [TextRange.Decoration.sizeOf_spec, Decorations.mk.sizeOf_spec] at hsz h1
                  omega
                have hd1 := ih d hdsz face rs re d1 hrec
                have hfs := fragsLen_set frags start (.Decoration d) (.Decoration d1) hgs
                simp only [TextRange.len] at hfs
                simp only [Decorations.len] at hd1 ⊢
                omega
          · rw [set_ne_general amb face frags rs re start so stop eo hf1 hf2 hss] at hset
            have := setGeneral_len amb face frags rs re start so stop eo t' hf1 hf2 hset
            simpa [Decorations.len] using this

theorem frags_eq_dropLast_concat {F : Type} {frags : List (TextRange F)} {x : TextRange F}
    (h : frags.getLast? = some x) : frags = frags.dropLast ++ [x] := by
  obtain ⟨hne, heq⟩ := List.mem_getLast?_eq_getLast (l := frags) h
  rw [heq]
  exact (List.dropLast_append_getLast hne).symm

/-- `append` increases the tree's length by exactly the appended length. -/
theorem append_len {F : Type} [DecidableEq F] : ∀ (n : Nat) (t : Decorations F), sizeOf t ≤ n →
    ∀ (face : F) (len : Nat), (t.append face len).len = t.len + len := by
  intro n
  induction n with
  | zero =>
    intro t hsz
    exfalso
    cases t with
    | mk f frags => simp only [Decorations.mk.sizeOf_spec] at hsz; omega
  | succ n ih =>
    intro t hsz face len
    cases t with
    | mk amb frags =>
      by_cases hface : amb = face
      · subst hface
        cases hl : frags.getLast? with
        | none =>
          rw [append_same_other amb frags len (fun old h => by rw [hl] at h; cases h)]
          simp [Decorations.len, fragsLen_append, fragsLen, TextRange.len]
        | some last =>
          cases last with
          | Range old =>
            rw [append_same_last_range amb frags len old hl]
            have hsplit := frags_eq_dropLast_concat hl
            simp only [Decorations.len]
            conv_rhs => rw [hsplit]
            simp [fragsLen_append, fragsLen, TextRange.len]
            omega
          | Decoration d =>
            rw [append_same_other amb frags len (fun old h => by
              rw [hl] at h; injection h with h'; cases h')]
            simp [Decorations.len, fragsLen_append, fragsLen, TextRange.len]
      · cases hl : frags.getLast? with
        | none =>
          rw [append_diff_other amb face frags len hface (fun d h => by rw [hl] at h; cases h)]
          simp [Decorations.len, fragsLen_append, fragsLen, Decorations.with_len, TextRange.len]
        | some last =>
          cases last with
          | Range old =>
            rw [append_diff_other amb face frags len hface (fun d h => by
              rw [hl] at h; injection h with h'; cases h')]
            simp [Decorations.len, fragsLen_append, fragsLen, Decorations.with_len, TextRange.len]
          | Decoration d =>
            by_cases hd : d.face = face
            · rw [append_diff_dec_same amb face frags len d hface hl hd]
              have hdsz : sizeOf d ≤ n := by
                have hm : TextRange.Decoration d ∈ frags := by
                  obtain ⟨h0, heq⟩ := List.mem_getLast?_eq_getLast (l := frags) hl
                  exact heq ▸ List.getLast_mem h0
                have h1 := List.sizeOf_lt_of_mem hm
                simp only [TextRange.Decoration.sizeOf_spec, Decorations.mk.sizeOf_spec] at hsz h1
                omega
              have hrec := ih d hdsz face len
              have hsplit := frags_eq_dropLast_concat hl
              simp only [Decorations.len] at hrec ⊢
              conv_rhs => rw [hsplit]
              simp [fragsLen_append, fragsLen, TextRange.len, Decorations.len] at hrec ⊢
              omega
            · rw [append_diff_dec_other amb face frags len d hface hl hd]
              simp [Decorations.len, fragsLen_append, fragsLen, Decorations.with_len,
                TextRange.len]

/-! ## Flatten lemmas -/

theorem fragsFlatten_append {F : Type} (amb : F) : ∀ (a b : List (TextRange F)),
    fragsFlatten amb (a ++ b) = fragsFlatten amb a ++ fragsFlatten amb b := by
  intro a
  induction a with
  | nil => intro b; simp [fragsFlatten]
  | cons t ts ih =>
    intro b
    cases t with
    | Range n => simp [fragsFlatten, ih]
    | Decoration d => simp [fragsFlatten, ih]

theorem sumLens_append {F : Type} (a b : List (F × Nat)) :
    sumLens (a ++ b) = sumLens a + sumLens b := by
  simp [sumLens]

/-- The lengths in `flatten` sum to the tree's length. -/
theorem flatten_sum {F : Type} : ∀ t : Decorations F, sumLens t.flatten = t.len := by
  refine Decorations.triple_ind
    (P := fun tr => ∀ amb : F, sumLens (fragsFlatten amb [tr]) = tr.len)
    (Q := fun d => sumLens d.flatten = d.len)
    (L := fun l => ∀ amb : F, sumLens (fragsFlatten amb l) = fragsLen l)
    ?_ ?_ ?_ ?_ ?_
  · intro n amb
    simp [fragsFlatten, sumLens, TextRange.len]
  · intro d hd amb
    simp [fragsFlatten, sumLens_append, hd, TextRange.len]
  · intro f l hl
    simp [Decorations.flatten, Decorations.len, hl f]
  · intro amb
    simp [fragsFlatten, sumLens, fragsLen]
  · intro t l ht hl amb
    have hsplit : t :: l = [t] ++ l := rfl
    rw [hsplit, fragsFlatten_append, sumLens_append, ht amb, hl amb]
    simp [fragsLen]

/-! ## Scenario evaluations -/

theorem face_default_eq : (default : Face) = Face.Default := rfl

/-- The markdown-like renderer of the spec's `set` scenario: `Strong` maps to
`**text**`, every other face to the bare text. -/
def strongRender : TextFragment Face → List Char := fun tf =>
  match tf.face with
  | .Strong => ('*' :: '*' :: tf.text) ++ ['*', '*']
  | _ => tf.text

/-- C2: the `set` fast path recurses into a nested run with the *absolute*
range instead of translating it by the run's start offset.  On the tree
`[Range 5, Nested(Emphasis,[Range 10]), Range 5]` (reachable by an append of
20 units followed by `set(Emphasis, 5..15)`), calling `set(Strong, 7..9)`
leaves `[7,9)` under `Emphasis` and instead overrides `[12,14)`: the flatten
is `[(Default,5),(Emphasis,7),(Strong,2),(Emphasis,1),(Default,5)]` rather
than a `Strong` run covering `[7,9)`. -/
theorem C2_fast_path_absolute_range_bug :
    ((((Decorations.new Face.Default).append .Default 20).set .Emphasis 5 15).bind
        (fun t => t.set .Strong 7 9)).map Decorations.flatten
      = some [(.Default, 5), (.Emphasis, 7), (.Strong, 2), (.Emphasis, 1), (.Default, 5)] := by
  simp [Decorations.new, Decorations.append, Decorations.set, setGeneral, fioFrags,
    TextRange.len, Decorations.len, fragsLen, TextRange.keep_start, TextRange.keep_end,
    Decorations.with_len, Decorations.flatten, fragsFlatten, List.getLast?, List.getLast,
    Decorations.face]

/-- C8 counterexample: the claimed flatten `[(Default,5),(Strong,4),(Default,15)]`
is wrong, since the buffer has 23 bytes (5+4+15 = 24): the code produces
`(Default,14)` for the final run. -/
theorem C8_flatten_counterexample :
    (Decorator.set (Decorator.with_text (F := Face) "This part is important.".toList)
        .Strong 5 9).map (fun d => d.decorations.flatten)
      ≠ some [(.Default, 5), (.Strong, 4), (.Default, 15)] := by
  simp [Decorator.with_text, Decorator.new, Decorator.append, Decorator.set, Decorations.new,
    Decorations.append, Decorations.set, setGeneral, fioFrags, TextRange.len, Decorations.len,
    fragsLen, TextRange.keep_start, TextRange.keep_end, Decorations.with_len,
    Decorations.flatten, fragsFlatten, List.getLast?, List.getLast, Decorations.face,
    face_default_eq]

/-- C8 as amended: on the buffer `"This part is important."`,
`set(Strong, 5..9)` yields flatten `[(Default,5),(Strong,4),(Default,14)]`,
and rendering with `Strong → **text**` yields
`"This **part** is important."`. -/
theorem C8_set_scenario :
    (Decorator.set (Decorator.with_text (F := Face) "This part is important.".toList)
        .Strong 5 9).map (fun d => d.decorations.flatten)
      = some [(.Default, 5), (.Strong, 4), (.Default, 14)]
    ∧ ((Decorator.set (Decorator.with_text (F := Face) "This part is important.".toList)
        .Strong 5 9).bind Decorator.build).map (fun t => t.render strongRender)
      = some "This **part** is important.".toList := by
  constructor
  · simp [Decorator.with_text, Decorator.new, Decorator.append, Decorator.set, Decorations.new,
      Decorations.append, Decorations.set, setGeneral, fioFrags, TextRange.len, Decorations.len,
      fragsLen, TextRange.keep_start, TextRange.keep_end, Decorations.with_len,
      Decorations.flatten, fragsFlatten, List.getLast?, List.getLast, Decorations.face,
      face_default_eq]
  · simp [Decorator.with_text, Decorator.new, Decorator.append, Decorator.set, Decorations.new,
      Decorations.append, Decorations.set, setGeneral, fioFrags, TextRange.len, Decorations.len,
      fragsLen, TextRange.keep_start, TextRange.keep_end, Decorations.with_len,
      Decorations.flatten, fragsFlatten, List.getLast?, List.getLast, Decorations.face,
      face_default_eq, Decorator.build, buildFrags, Text.render, strongRender]

/-- C9: the five-way append scenario keeps five ordered runs
`[Default, Star, Pipe, Star, Default]` with lengths `[5, 6, 4, 6, 14]`, even
though two non-adjacent runs share the face `Star`. -/
theorem C9_append_scenario :
    ((((((((((Decorator.new (F := Face)).append "This ".toList).set_face .Star).append
        "weird ".toList).set_face .Pipe).append "tiny".toList).set_face .Star).append
        " error".toList).set_face .Default).append " is important!".toList).decorations.flatten
      = [(.Default, 5), (.Star, 6), (.Pipe, 4), (.Star, 6), (.Default, 14)] := by
  simp [Decorator.new, Decorator.append, Decorator.set_face, Decorations.new,
    Decorations.append, Decorations.with_len, Decorations.flatten, fragsFlatten,
    List.getLast?, List.getLast, Decorations.face, face_default_eq]

/-! ## Decorator-level set behaviour (clamping) -/

theorem fio_none_of_gt {F : Type} : ∀ (frags : List (TextRange F)) (off : Nat),
    fragsLen frags < off → fioFrags frags off = none := by
  intro frags
  induction frags with
  | nil => intro off _; rfl
  | cons t ts ih =>
    intro off h
    simp only [fragsLen] at h
    simp only [fioFrags, if_neg (by omega : ¬ t.len ≥ off)]
    rw [ih (off - t.len) (by omega)]
    rfl

/-- C4 counterexample: on a 2-byte buffer, `set` with range `5..6` panics
instead of being clamped: `range.start` is not clamped to the length. -/
theorem C4_out_of_range_start_fails :
    Decorator.set (Decorator.with_text (F := Face) "ab".toList) .Star 5 6 = none := by
  simp [Decorator.with_text, Decorator.new, Decorator.append, Decorator.set, Decorations.new,
    Decorations.append, Decorations.set, setGeneral, fioFrags, TextRange.len, Decorations.len,
    fragsLen, List.getLast?, List.getLast, Decorations.face, face_default_eq]

/-- C4 as amended: `Decorator::set` silently clamps only `range.end` to the
current length (`max(start, 0)` is the identity on `usize`), so a range end
beyond the buffer behaves exactly like one clamped to the length, while a
`range.start` beyond the current length makes the call fail rather than being
corrected. -/
theorem C4_clamping :
    (∀ {F : Type} (d : Decorator F) (face : F) (rs re : Nat), d.decorations.len ≤ re →
      d.set face rs re = d.set face rs d.decorations.len)
    ∧ (∀ {F : Type} (d : Decorator F) (face : F) (rs re : Nat), d.decorations.len < rs →
      d.set face rs re = none) := by
  constructor
  · intro F d face rs re h
    rw [Decorator.set, Decorator.set, Nat.min_eq_right h, Nat.min_self]
  · intro F d face rs re h
    rw [Decorator.set]
    cases hd : d.decorations with
    | mk amb frags =>
      rw [set_fio_rs_none amb face frags _ _ ?_]
      have : d.decorations.len = fragsLen frags := by rw [hd]; rfl
      apply fio_none_of_gt
      omega

/-- C4 witness: on the 2-byte buffer `"ab"`, `set(Star, 1..5)` equals
`set(Star, 1..2)`, and `set(Star, 5..6)` fails. -/
theorem C4_clamping_witness :
    Decorator.set (Decorator.with_text (F := Face) "ab".toList) .Star 1 5
      = Decorator.set (Decorator.with_text (F := Face) "ab".toList) .Star 1
          (Decorator.with_text (F := Face) "ab".toList).decorations.len
    ∧ Decorator.set (Decorator.with_text (F := Face) "ab".toList) .Star 5 6 = none := by
  constructor
  · exact C4_clamping.1 (Decorator.with_text (F := Face) "ab".toList) .Star 1 5 (by
      simp [Decorator.with_text, Decorator.new, Decorator.append, Decorations.new,
        Decorations.append, Decorations.len, fragsLen, TextRange.len, List.getLast?,
        face_default_eq])
  · exact C4_clamping.2 (Decorator.with_text (F := Face) "ab".toList) .Star 5 6 (by
      simp [Decorator.with_text, Decorator.new, Decorator.append, Decorations.new,
        Decorations.append, Decorations.len, fragsLen, TextRange.len, List.getLast?,
        face_default_eq])

/-! ## Zero-length set -/

/-- C5 counterexample: `set(Star, 1..1)` on the length-2 tree returns
normally but inserts a zero-length `Star` run: the tree (already visible in
its flatten) is not unchanged; and on the empty tree the zero-length `set`
panics instead of returning normally. -/
theorem C5_zero_length_set_not_noop :
    ((((Decorations.new Face.Default).append .Default 2).set .Star 1 1).map Decorations.flatten
      = some [(.Default, 1), (.Star, 0), (.Default, 1)])
    ∧ (((Decorations.new Face.Default).append .Default 2).set .Star 1 1).map Decorations.flatten
      ≠ some ((Decorations.new Face.Default).append .Default 2).flatten
    ∧ (Decorations.new Face.Default).set .Star 0 0 = none := by
  refine ⟨?_, ?_, ?_⟩ <;>
    simp [Decorations.new, Decorations.append, Decorations.set, setGeneral, fioFrags,
      TextRange.len, Decorations.len, fragsLen, TextRange.keep_start, TextRange.keep_end,
      Decorations.with_len, Decorations.flatten, fragsFlatten, List.getLast?, List.getLast,
      Decorations.face]

/-- C5 as amended: a zero-length `set` need not return normally (the empty
tree panics), and when it does return it preserves `length()`, but the tree
is in general not equal to the tree before the call (a zero-length nested
run of the face is inserted). -/
theorem C5_zero_length_set_preserves_len {F : Type} (t : Decorations F) (face : F) (k : Nat)
    (t' : Decorations F) (h : t.set face k k = some t') : t'.len = t.len := by
  have := set_len (sizeOf t) t le_rfl face k k t' h
  omega

/-- C5 witness: the zero-length `set` at offset 1 on the length-2 tree
returns a tree of length 2. -/
theorem C5_zero_length_set_preserves_len_witness :
    (Decorations.mk Face.Default
        [.Range 1, .Decoration (.mk .Star [.Range 0]), .Range 1]).len
      = ((Decorations.new Face.Default).append .Default 2).len :=
  C5_zero_length_set_preserves_len ((Decorations.new Face.Default).append .Default 2) .Star 1
    (Decorations.mk Face.Default [.Range 1, .Decoration (.mk .Star [.Range 0]), .Range 1]) (by
      simp [Decorations.new, Decorations.append, Decorations.set, setGeneral, fioFrags,
        TextRange.len, Decorations.len, fragsLen, TextRange.keep_start, TextRange.keep_end,
        Decorations.with_len, List.getLast?, List.getLast, Decorations.face])

/-! ## Append merging -/

theorem with_len_append {F : Type} [DecidableEq F] (face : F) (a b : Nat) :
    (Decorations.with_len face a).append face b = Decorations.with_len face (a + b) := by
  rw [Decorations.with_len,
    append_same_last_range face [.Range a] b a (by simp [List.getLast?])]
  simp [Decorations.with_len]

theorem append_append_aux {F : Type} [DecidableEq F] : ∀ (n : Nat) (t : Decorations F),
    sizeOf t ≤ n → ∀ (face : F) (a b : Nat),
    (t.append face a).append face b = t.append face (a + b) := by
  intro n
  induction n with
  | zero =>
    intro t hsz
    exfalso
    cases t with
    | mk f frags => simp only [Decorations.mk.sizeOf_spec] at hsz; omega
  | succ n ih =>
    intro t hsz face a b
    cases t with
    | mk amb frags =>
      by_cases hface : amb = face
      · subst hface
        cases hl : frags.getLast? with
        | none =>
          rw [append_same_other amb frags a (fun old h => by rw [hl] at h; cases h),
            append_same_last_range amb (frags ++ [TextRange.Range a]) b a (by simp),
            append_same_other amb frags (a + b) (fun old h => by rw [hl] at h; cases h),
            List.dropLast_concat]
        | some last =>
          cases last with
          | Range old =>
            rw [append_same_last_range amb frags a old hl,
              append_same_last_range amb (frags.dropLast ++ [TextRange.Range (old + a)]) b (old + a)
                (by simp),
              append_same_last_range amb frags (a + b) old hl,
              List.dropLast_concat]
            simp [Nat.add_assoc]
          | Decoration d =>
            rw [append_same_other amb frags a (fun old h => by
                rw [hl] at h; injection h with h'; cases h'),
              append_same_last_range amb (frags ++ [TextRange.Range a]) b a (by simp),
              append_same_other amb frags (a + b) (fun old h => by
                rw [hl] at h; injection h with h'; cases h'),
              List.dropLast_concat]
      · cases hl : frags.getLast? with
        | none =>
          rw [append_diff_other amb face frags a hface (fun d h => by rw [hl] at h; cases h),
            append_diff_dec_same amb face (frags ++ [TextRange.Decoration (Decorations.with_len face a)])
              b (Decorations.with_len face a) hface (by simp) (by rfl),
            append_diff_other amb face frags (a + b) hface (fun d h => by rw [hl] at h; cases h),
            List.dropLast_concat, with_len_append]
        | some last =>
          cases last with
          | Range old =>
            rw [append_diff_other amb face frags a hface (fun d h => by
                rw [hl] at h; injection h with h'; cases h'),
              append_diff_dec_same amb face (frags ++ [TextRange.Decoration (Decorations.with_len face a)])
                b (Decorations.with_len face a) hface (by simp) (by rfl),
              append_diff_other amb face frags (a + b) hface (fun d h => by
                rw [hl] at h; injection h with h'; cases h'),
              List.dropLast_concat, with_len_append]
          | Decoration d =>
            by_cases hd : d.face = face
            · have hdsz : sizeOf d ≤ n := by
                have hm : TextRange.Decoration d ∈ frags := by
                  obtain ⟨h0, heq⟩ := List.mem_getLast?_eq_getLast (l := frags) hl
                  exact heq ▸ List.getLast_mem h0
                have h1 := List.sizeOf_lt_of_mem hm
                simp only [TextRange.Decoration.sizeOf_spec, Decorations.mk.sizeOf_spec] at hsz h1
                omega
              rw [append_diff_dec_same amb face frags a d hface hl hd,
                append_diff_dec_same amb face (frags.dropLast ++ [TextRange.Decoration (d.append face a)])
                  b (d.append face a) hface (by simp) (by rw [append_face]; exact hd),
                append_diff_dec_same amb face frags (a + b) d hface hl hd,
                List.dropLast_concat, ih d hdsz face a b]
            · rw [append_diff_dec_other amb face frags a d hface hl hd,
                append_diff_dec_same amb face
                  (frags ++ [TextRange.Decoration (Decorations.with_len face a)]) b
                  (Decorations.with_len face a) hface (by simp) (by rfl),
                append_diff_dec_other amb face frags (a + b) d hface hl hd,
                List.dropLast_concat, with_len_append]

/-- C7: appending the same face twice, `append(f, a)` then `append(f, b)`,
yields the same tree as the single call `append(f, a+b)`. -/
theorem C7_append_merge {F : Type} [DecidableEq F] (t : Decorations F) (face : F) (a b : Nat) :
    (t.append face a).append face b = t.append face (a + b) :=
  append_append_aux (sizeOf t) t le_rfl face a b

/-! ## Text container -/

theorem plain_foldl_eq {F : Type} : ∀ (l : List (TextFragment F)) (acc : List Char),
    l.foldl (fun a x => a ++ x.text) acc = acc ++ (l.map (fun tf => tf.text)).flatten := by
  intro l
  induction l with
  | nil => intro acc; simp
  | cons t ts ih => intro acc; simp [ih]

theorem text_len_foldl_eq {F : Type} : ∀ (l : List (TextFragment F)) (acc : Nat),
    l.foldl (fun a x => a + x.text.length) acc
      = acc + ((l.map (fun tf => tf.text)).flatten).length := by
  intro l
  induction l with
  | nil => intro acc; simp
  | cons t ts ih => intro acc; simp [ih]; omega

/-- C10: rendering with the decorator that returns each fragment's text
unchanged produces exactly `plain()`, and `text_len()` is the byte length of
that string. -/
theorem C10_render_plain_text_len {F : Type} (t : Text F) :
    t.render (fun tf => tf.text) = t.plain ∧ t.text_len = t.plain.length := by
  obtain ⟨frags⟩ := t
  have hplain : Text.plain ⟨frags⟩ = (frags.map (fun tf => tf.text)).flatten := by
    rw [Text.plain]
    exact plain_foldl_eq frags []
  constructor
  · rw [Text.render, hplain]
  · rw [Text.text_len, hplain]
    have := text_len_foldl_eq frags 0
    simpa using this

/-! ## Length conservation over operation sequences -/

theorem runOps_len {F : Type} [DecidableEq F] : ∀ (ops : List (Op F)) (t t' : Decorations F),
    okBounds t ops = true → runOps t ops = some t' → t'.len = t.len + appendSum ops := by
  intro ops
  induction ops with
  | nil =>
    intro t t' _ hrun
    simp only [runOps, Option.some.injEq] at hrun
    subst hrun
    simp [appendSum]
  | cons op rest ih =>
    intro t t' hok hrun
    cases op with
    | append f n =>
      simp only [okBounds] at hok
      simp only [runOps] at hrun
      have hrec := ih _ t' hok hrun
      have ha := append_len (sizeOf t) t le_rfl f n
      simp only [appendSum]
      omega
    | set f s e =>
      simp only [okBounds, Bool.and_eq_true, decide_eq_true_eq] at hok
      obtain ⟨⟨hse, hel⟩, hok'⟩ := hok
      simp only [runOps] at hrun
      cases hst : t.set f s e with
      | none => rw [hst] at hrun; cases hrun
      | some t1 =>
        rw [hst] at hrun
        simp only [hst] at hok'
        have hlen := set_len (sizeOf t) t le_rfl f s e t1 hst
        have hrec := ih t1 t' hok' hrun
        simp only [appendSum]
        omega

/-- C1: `append` grows the length by exactly the appended length, an
in-bounds `set` that returns normally preserves the length, and hence over
any sequence of operations from the empty tree in which every `set` range is
in bounds and every call returns normally, the final length is the sum of
the appended lengths. -/
theorem C1_length_conservation {F : Type} [DecidableEq F] :
    (∀ (t : Decorations F) (face : F) (n : Nat), (t.append face n).len = t.len + n)
    ∧ (∀ (t : Decorations F) (face : F) (rs re : Nat) (t' : Decorations F),
        rs ≤ re → re ≤ t.len → t.set face rs re = some t' → t'.len = t.len)
    ∧ (∀ (f0 : F) (ops : List (Op F)) (t' : Decorations F),
        okBounds (Decorations.new f0) ops = true →
        runOps (Decorations.new f0) ops = some t' → t'.len = appendSum ops) := by
  refine ⟨?_, ?_, ?_⟩
  · intro t face n
    exact append_len (sizeOf t) t le_rfl face n
  · intro t face rs re t' hse _ hset
    have := set_len (sizeOf t) t le_rfl face rs re t' hset
    omega
  · intro f0 ops t' hok hrun
    have := runOps_len ops (Decorations.new f0) t' hok hrun
    simpa [Decorations.new, Decorations.len, fragsLen] using this

/-- C1 witness: from the empty tree, `append(Star,3)`, `set(Pipe,1..2)`,
`append(Default,4)` ends at length `3 + 4`. -/
theorem C1_length_conservation_witness :
    (Decorations.mk Face.Default
        [.Decoration (.mk .Star [.Range 1, .Decoration (.mk .Pipe [.Range 1]), .Range 1]),
         .Range 4]).len
      = appendSum [Op.append Face.Star 3, Op.set Face.Pipe 1 2, Op.append Face.Default 4] :=
  C1_length_conservation.2.2 Face.Default
    [Op.append Face.Star 3, Op.set Face.Pipe 1 2, Op.append Face.Default 4]
    (Decorations.mk Face.Default
      [.Decoration (.mk .Star [.Range 1, .Decoration (.mk .Pipe [.Range 1]), .Range 1]),
       .Range 4])
    (by simp [okBounds, Decorations.new, Decorations.append, Decorations.set, setGeneral,
      fioFrags, TextRange.len, Decorations.len, fragsLen, TextRange.keep_start,
      TextRange.keep_end, Decorations.with_len, List.getLast?, List.getLast, Decorations.face])
    (by simp [runOps, Decorations.new, Decorations.append, Decorations.set, setGeneral,
      fioFrags, TextRange.len, Decorations.len, fragsLen, TextRange.keep_start,
      TextRange.keep_end, Decorations.with_len, List.getLast?, List.getLast, Decorations.face])

/-! ## Builder reconstruction -/

theorem decorator_set_inv {F : Type} (d : Decorator F) (face : F) (rs re : Nat)
    (d' : Decorator F) (h : d.set face rs re = some d') :
    d.decorations.set face (max rs 0) (min re d.decorations.len) = some d'.decorations
      ∧ d'.text = d.text := by
  rw [Decorator.set] at h
  cases hs : d.decorations.set face (max rs 0) (min re d.decorations.len) with
  | none => rw [hs] at h; cases h
  | some dec =>
    rw [hs] at h
    injection h with h'
    subst h'
    exact ⟨rfl, rfl⟩

theorem run_text {F : Type} [DecidableEq F] [Inhabited F] :
    ∀ (ops : List (DOp F)) (d0 d : Decorator F),
    Decorator.run d0 ops = some d → d.text = d0.text ++ appendedText ops := by
  intro ops
  induction ops with
  | nil =>
    intro d0 d hrun
    simp only [Decorator.run, Option.some.injEq] at hrun
    subst hrun
    simp [appendedText]
  | cons op rest ih =>
    intro d0 d hrun
    cases op with
    | append s =>
      simp only [Decorator.run] at hrun
      have := ih _ d hrun
      simp only [appendedText, Decorator.append] at this ⊢
      simp [this]
    | set_face f =>
      simp only [Decorator.run] at hrun
      have := ih _ d hrun
      simpa [appendedText, Decorator.set_face] using this
    | reset_face =>
      simp only [Decorator.run] at hrun
      have := ih _ d hrun
      simpa [appendedText, Decorator.reset_face, Decorator.set_face] using this
    | set f s e =>
      simp only [Decorator.run] at hrun
      cases hst : Decorator.set d0 f s e with
      | none => rw [hst] at hrun; cases hrun
      | some d1 =>
        rw [hst] at hrun
        have h1 := decorator_set_inv d0 f s e d1 hst
        have := ih d1 d hrun
        rw [this, h1.2]
        simp [appendedText]

theorem run_len_ge {F : Type} [DecidableEq F] [Inhabited F] :
    ∀ (ops : List (DOp F)) (d0 d : Decorator F),
    Decorator.run d0 ops = some d → d0.text.length ≤ d0.decorations.len →
    d.text.length ≤ d.decorations.len := by
  intro ops
  induction ops with
  | nil =>
    intro d0 d hrun h0
    simp only [Decorator.run, Option.some.injEq] at hrun
    subst hrun
    exact h0
  | cons op rest ih =>
    intro d0 d hrun h0
    cases op with
    | append s =>
      simp only [Decorator.run] at hrun
      refine ih _ d hrun ?_
      have ha := append_len (sizeOf d0.decorations) d0.decorations le_rfl
        d0.current_face s.length
      simp only [Decorator.append, List.length_append]
      omega
    | set_face f =>
      simp only [Decorator.run] at hrun
      exact ih _ d hrun (by simpa [Decorator.set_face] using h0)
    | reset_face =>
      simp only [Decorator.run] at hrun
      exact ih _ d hrun (by simpa [Decorator.reset_face, Decorator.set_face] using h0)
    | set f s e =>
      simp only [Decorator.run] at hrun
      cases hst : Decorator.set d0 f s e with
      | none => rw [hst] at hrun; cases hrun
      | some d1 =>
        rw [hst] at hrun
        obtain ⟨hset, htext⟩ := decorator_set_inv d0 f s e d1 hst
        have hlen := set_len (sizeOf d0.decorations) d0.decorations le_rfl f
          (max s 0) (min e d0.decorations.len) d1.decorations hset
        refine ih d1 d hrun ?_
        rw [htext]
        omega

theorem buildFrags_plain {F : Type} : ∀ (l : List (F × Nat)) (text : List Char) (acc : Nat)
    (tfs : List (TextFragment F)), buildFrags text l acc = some tfs →
    (tfs.map (fun tf => tf.text)).flatten = (text.drop acc).take (sumLens l) := by
  intro l
  induction l with
  | nil =>
    intro text acc tfs h
    simp only [buildFrags, Option.some.injEq] at h
    subst h
    simp [sumLens]
  | cons p rest ih =>
    intro text acc tfs h
    obtain ⟨face, len⟩ := p
    simp only [buildFrags] at h
    split at h
    · rename_i hbound
      cases hrec : buildFrags text rest (acc + len) with
      | none => rw [hrec] at h; cases h
      | some tfs' =>
        rw [hrec] at h
        injection h with h'
        subst h'
        have := ih text (acc + len) tfs' hrec
        simp only [List.map_cons, List.flatten_cons, this]
        have hsum : sumLens ((face, len) :: rest) = len + sumLens rest := by
          simp [sumLens]
        rw [hsum, List.take_add, ← List.drop_drop]
    · cases h

/-- C3: the lengths in `flatten()` sum to `length()`, and for any builder
run that returns normally and whose `build()` returns normally, the built
text's `plain()` is exactly the concatenation of all appended text. -/
theorem C3_flatten_complete_build_reconstructs {F : Type} [DecidableEq F] [Inhabited F] :
    (∀ t : Decorations F, sumLens t.flatten = t.len)
    ∧ (∀ (ops : List (DOp F)) (d : Decorator F) (txt : Text F),
        Decorator.run Decorator.new ops = some d → d.build = some txt →
        txt.plain = appendedText ops) := by
  refine ⟨flatten_sum, ?_⟩
  intro ops d txt hrun hbuild
  rw [Decorator.build] at hbuild
  cases hb : buildFrags d.text d.decorations.flatten 0 with
  | none => rw [hb] at hbuild; cases hbuild
  | some tfs =>
    rw [hb] at hbuild
    injection hbuild with h'
    subst h'
    have hplain : (Text.mk tfs).plain = (tfs.map (fun tf => tf.text)).flatten := by
      rw [Text.plain]
      exact plain_foldl_eq tfs []
    have hslice := buildFrags_plain d.decorations.flatten d.text 0 tfs hb
    have hsum : sumLens d.decorations.flatten = d.decorations.len := flatten_sum _
    have htext : d.text = appendedText ops := by
      have := run_text ops Decorator.new d hrun
      simpa [Decorator.new] using this
    have hge : d.text.length ≤ d.decorations.len :=
      run_len_ge ops Decorator.new d hrun (by simp [Decorator.new, Decorations.new,
        Decorations.len, fragsLen])
    rw [hplain, hslice, hsum, List.drop_zero, List.take_of_length_le (by omega)]
    exact htext

/-- C3 witness: running `append "ab"` from the empty builder and building
yields a text whose `plain` is `"ab"`. -/
theorem C3_witness :
    (Text.mk [⟨"ab".toList, Face.Default⟩]).plain
      = appendedText [DOp.append (F := Face) "ab".toList] :=
  C3_flatten_complete_build_reconstructs.2 [DOp.append (F := Face) "ab".toList]
    (Decorator.append (Decorator.new (F := Face)) "ab".toList)
    (Text.mk [⟨"ab".toList, Face.Default⟩])
    (by simp [Decorator.run])
    (by simp [Decorator.build, buildFrags, Decorator.new, Decorator.append, Decorations.new,
      Decorations.append, Decorations.flatten, fragsFlatten, List.getLast?, face_default_eq,
      Decorations.with_len, TextRange.len, Decorations.len, fragsLen])

/-! ## Idempotence machinery: canonical keep_start results -/

theorem get?_append_cons {F : Type} : ∀ (l1 : List (TextRange F)) (x : TextRange F)
    (l2 : List (TextRange F)), (l1 ++ x :: l2).get? l1.length = some x := by
  intro l1
  induction l1 with
  | nil => intro x l2; rfl
  | cons t ts ih => intro x l2; simpa using ih x l2

theorem take_append_length {F : Type} : ∀ (l1 l2 : List (TextRange F)),
    (l1 ++ l2).take l1.length = l1 := by
  intro l1
  induction l1 with
  | nil => intro l2; rfl
  | cons t ts ih => intro l2; simpa using ih l2

theorem drop_append_length {F : Type} : ∀ (l1 l2 : List (TextRange F)) (n : Nat),
    (l1 ++ l2).drop (l1.length + n) = l2.drop n := by
  intro l1
  induction l1 with
  | nil => intro l2 n; simp
  | cons t ts ih =>
    intro l2 n
    have : (t :: ts).length + n = (ts.length + n) + 1 := by simp; omega
    simp only [List.cons_append, this, List.drop_succ_cons]
    exact ih l2 n

theorem get?_set_self {F : Type} : ∀ (l : List (TextRange F)) (i : Nat)
    (a b : TextRange F), l.get? i = some a → (l.set i b).get? i = some b := by
  intro l
  induction l with
  | nil => intro i a b h; simp at h
  | cons t ts ih =>
    intro i a b h
    cases i with
    | zero => rfl
    | succ i' =>
      simp only [List.get?_cons_succ] at h
      simpa using ih i' a b h

theorem fragsFlatten_set_congr {F : Type} : ∀ (frags : List (TextRange F)) (i : Nat)
    (a b : TextRange F) (amb : F), frags.get? i = some a →
    fragsFlatten amb [b] = fragsFlatten amb [a] →
    fragsFlatten amb (frags.set i b) = fragsFlatten amb frags := by
  intro frags
  induction frags with
  | nil => intro i a b amb h; simp at h
  | cons t ts ih =>
    intro i a b amb hget heq
    cases i with
    | zero =>
      obtain rfl : t = a := by simpa using hget
      have h1 : (t :: ts : List (TextRange F)) = [t] ++ ts := rfl
      have h2 : (b :: ts : List (TextRange F)) = [b] ++ ts := rfl
      rw [List.set_cons_zero, h2, h1, fragsFlatten_append, fragsFlatten_append, heq]
    | succ i' =>
      simp only [List.get?_cons_succ] at hget
      have h1 : ∀ x ts', (x :: ts' : List (TextRange F)) = [x] ++ ts' := fun _ _ => rfl
      rw [List.set_cons_succ, h1 t (ts.set i' b), h1 t ts, fragsFlatten_append,
        fragsFlatten_append, ih i' a b amb hget heq]

/-- Canonical shape of a `keep_start` result: a positive plain run, or a
nested tree whose last fragment is itself canonical. -/
inductive KSGood {F : Type} : TextRange F → Prop where
  | range (n : Nat) (h : 0 < n) : KSGood (.Range n)
  | dec (face : F) (init : List (TextRange F)) (last : TextRange F) (h : KSGood last) :
      KSGood (.Decoration (.mk face (init ++ [last])))

theorem ksgood_pos {F : Type} : ∀ {tr : TextRange F}, KSGood tr → 0 < tr.len := by
  intro tr h
  induction h with
  | range n hn => simpa [TextRange.len] using hn
  | dec face init last _ ih =>
    simp only [TextRange.len, Decorations.len, fragsLen_append, fragsLen]
    omega

theorem keep_start_succ_some {F : Type} (tr : TextRange F) (k : Nat)
    (r : Option (TextRange F)) (h : tr.keep_start (k + 1) = some r) :
    ∃ x, r = some x := by
  cases tr with
  | Range m =>
    rw [keep_start_range] at h
    injection h with h'
    exact ⟨_, h'.symm⟩
  | Decoration d =>
    cases d with
    | mk face frags =>
      cases hf : fioFrags frags (k + 1) with
      | none => rw [keep_start_dec_fio_none face frags k hf] at h; cases h
      | some p =>
        obtain ⟨idx, idx_offset⟩ := p
        obtain ⟨frag, hget, _, _, _, _⟩ := fio_spec frags (k + 1) idx idx_offset hf
        cases hk : frag.keep_start (k + 1 - idx_offset) with
        | none => rw [keep_start_dec_panic face frags k idx idx_offset frag hf hget hk] at h; cases h
        | some inner =>
          rw [keep_start_dec_ok face frags k idx idx_offset frag inner hf hget hk] at h
          injection h with h'
          exact ⟨_, h'.symm⟩

theorem keep_start_none_zero {F : Type} (tr : TextRange F) (off : Nat)
    (h : tr.keep_start off = some none) : off = 0 := by
  cases off with
  | zero => rfl
  | succ k =>
    obtain ⟨x, hx⟩ := keep_start_succ_some tr k none h
    cases hx

/-- Every fragment produced by `keep_start` is canonical. -/
theorem keep_start_good {F : Type} : ∀ (n : Nat) (tr : TextRange F), sizeOf tr ≤ n →
    ∀ (off : Nat) (k : TextRange F), tr.keep_start off = some (some k) → KSGood k := by
  intro n
  induction n with
  | zero =>
    intro tr hsz
    exfalso
    cases tr with
    | Range m => simp only [TextRange.Range.sizeOf_spec] at hsz; omega
    | Decoration d => simp only [TextRange.Decoration.sizeOf_spec] at hsz; omega
  | succ n ih =>
    intro tr hsz off k hks
    cases off with
    | zero =>
      rw [keep_start_zero] at hks
      injection hks with h
      cases h
    | succ m =>
      cases tr with
      | Range mm =>
        rw [keep_start_range] at hks
        injection hks with h
        injection h with h'
        subst h'
        exact KSGood.range _ (by omega)
      | Decoration d =>
        cases d with
        | mk face frags =>
          cases hf : fioFrags frags (m + 1) with
          | none => rw [keep_start_dec_fio_none face frags m hf] at hks; cases hks
          | some p =>
            obtain ⟨idx, idx_offset⟩ := p
            obtain ⟨frag, hget, ho, holb, hreach, hbefore⟩ :=
              fio_spec frags (m + 1) idx idx_offset hf
            cases hk : frag.keep_start (m + 1 - idx_offset) with
            | none =>
              rw [keep_start_dec_panic face frags m idx idx_offset frag hf hget hk] at hks
              cases hks
            | some inner =>
              rw [keep_start_dec_ok face frags m idx idx_offset frag inner hf hget hk] at hks
              injection hks with h
              injection h with h'
              subst h'
              have hrelpos : 0 < m + 1 - idx_offset := by
                cases idx with
                | zero =>
                  have : idx_offset = 0 := by simpa [fragsLen] using ho
                  omega
                | succ j =>
                  have := hbefore j (by omega)
                  rw [ho]
                  omega
              obtain ⟨mm, hmm⟩ := Nat.exists_eq_add_of_lt hrelpos
              obtain ⟨tr', htr'⟩ := keep_start_succ_some frag mm inner (by
                rw [← hk]
                congr 1
                omega)
              subst htr'
              have hfragsz : sizeOf frag ≤ n := by
                have h1 := List.sizeOf_lt_of_mem (List.get?_mem hget)
                simp only [TextRange.Decoration.sizeOf_spec, Decorations.mk.sizeOf_spec] at hsz
                omega
              have hgood := ih frag hfragsz (m + 1 - idx_offset) tr' hk
              simpa using KSGood.dec face (frags.take idx) tr' hgood

/-- `keep_start` at the full length of one of its own results copies the
fragment unchanged. -/
theorem keep_start_self {F : Type} : ∀ {k : TextRange F}, KSGood k →
    k.keep_start k.len = some (some k) := by
  intro k h
  induction h with
  | range n hn =>
    obtain ⟨m, rfl⟩ : ∃ m, n = m + 1 := ⟨n - 1, by omega⟩
    simpa [TextRange.len] using keep_start_range (F := F) (m + 1) m
  | dec face init last hlast ih =>
    have hpos := ksgood_pos hlast
    have hlen : (TextRange.Decoration (.mk face (init ++ [last]))).len
        = fragsLen init + last.len := by
      simp [TextRange.len, Decorations.len, fragsLen_append, fragsLen]
    obtain ⟨m, hm⟩ : ∃ m, fragsLen init + last.len = m + 1 :=
      ⟨fragsLen init + last.len - 1, by omega⟩
    have hfio : fioFrags (init ++ [last]) (m + 1) = some (init.length, fragsLen init) := by
      have hstops := fio_stops init last [] (m + 1) ?_ (by omega)
      · simpa using hstops
      · intro j hj
        have h1 := fragsLen_take_le_self init (j + 1)
        omega
    have hget : (init ++ [last]).get? init.length = some last := get?_append_cons init last []
    have hks : last.keep_start (m + 1 - fragsLen init) = some (some last) := by
      have hrel : m + 1 - fragsLen init = last.len := by omega
      rw [hrel]; exact ih
    have hok := keep_start_dec_ok face (init ++ [last]) m init.length (fragsLen init) last
      (some last) hfio hget hks
    rw [hlen, hm, hok, take_append_length]
    rfl

theorem with_len_len {F : Type} (face : F) (n : Nat) :
    (TextRange.Decoration (Decorations.with_len face n)).len = n := by
  simp [TextRange.len, Decorations.len, Decorations.with_len, fragsLen]

theorem take_append_le {F : Type} : ∀ (l1 l2 : List (TextRange F)) (n : Nat),
    n ≤ l1.length → (l1 ++ l2).take n = l1.take n := by
  intro l1
  induction l1 with
  | nil =>
    intro l2 n h
    simp at h
    subst h
    simp
  | cons t ts ih =>
    intro l2 n h
    cases n with
    | zero => simp
    | succ n' =>
      simp only [List.cons_append, List.take_succ_cons]
      rw [ih l2 n' (by simpa using h)]

theorem get?_some_lt_length {F : Type} {frags : List (TextRange F)} {i : Nat}
    {tr : TextRange F} (h : frags.get? i = some tr) : i < frags.length := by
  by_contra hc
  rw [List.get?_eq_none.mpr (by omega)] at h
  cases h

/-- A second identical `set` through the general splice path reproduces the
spliced tree: the boundary fragments it would re-trim are exactly the
`keep_start` remainder and the freshly inserted override run. -/
theorem setGeneral_idem {F : Type} (amb face : F) (frags : List (TextRange F)) (rs re : Nat)
    (start so stop eo : Nat) (t1 : Decorations F)
    (hf1 : fioFrags frags rs = some (start, so))
    (hf2 : fioFrags frags re = some (stop, eo))
    (hlt : rs < re)
    (h : setGeneral amb frags face rs re start so stop eo = some t1) :
    ∃ t2, t1.set face rs re = some t2 ∧ t2.flatten = t1.flatten := by
  obtain ⟨fs, hgs, hso, hsolb, hsreach, hbs⟩ := fio_spec frags rs start so hf1
  obtain ⟨fe, hge, heo, heolb, hereach, hbe⟩ := fio_spec frags re stop eo hf2
  have hslt : start < frags.length := get?_some_lt_length hgs
  have hBlen : (frags.take start).length = start := by
    rw [List.length_take]
    omega
  rw [setGeneral] at h
  split at h
  · cases h
  · rename_i hguard
    simp only [hgs, hge] at h
    cases hks : fs.keep_start (rs - so) with
    | none => rw [hks] at h; cases h
    | some ks =>
      rw [hks] at h
      cases hke : fe.keep_end (re - eo) with
      | none => rw [hke] at h; cases h
      | some ke =>
        rw [hke] at h
        injection h with h'
        cases ks with
        | some k =>
          have hkgood : KSGood k := keep_start_good (sizeOf fs) fs le_rfl (rs - so) k hks
          have hklen : k.len = rs - so := by
            have := keep_start_len (sizeOf fs) fs le_rfl (rs - so) (some k) hks
            simpa [optLen] using this
          have hkpos : 0 < k.len := ksgood_pos hkgood
          have ht1 : t1 = .mk amb (frags.take start ++ k ::
              TextRange.Decoration (Decorations.with_len face (re - rs)) ::
              (ke.toList ++ frags.drop (stop + 1))) := by
            rw [← h']
            simp
          have hpre1 : ∀ j, j < (frags.take start).length →
              fragsLen ((frags.take start).take (j + 1)) < rs := by
            intro j hj
            rw [hBlen] at hj
            rw [List.take_take, Nat.min_eq_left (by omega)]
            exact hbs j hj
          have hfb : fragsLen (frags.take start) = so := hso.symm
          have hfio1 : fioFrags (frags.take start ++ k ::
              TextRange.Decoration (Decorations.with_len face (re - rs)) ::
              (ke.toList ++ frags.drop (stop + 1))) rs = some (start, so) := by
            have hstops := fio_stops (frags.take start) k
              (TextRange.Decoration (Decorations.with_len face (re - rs)) ::
                (ke.toList ++ frags.drop (stop + 1))) rs hpre1 (by rw [hfb]; omega)
            rw [hBlen, hfb] at hstops
            exact hstops
          have hassoc : frags.take start ++ k ::
              TextRange.Decoration (Decorations.with_len face (re - rs)) ::
              (ke.toList ++ frags.drop (stop + 1))
              = (frags.take start ++ [k]) ++
                TextRange.Decoration (Decorations.with_len face (re - rs)) ::
                (ke.toList ++ frags.drop (stop + 1)) := by
            simp
          have hBklen : (frags.take start ++ [k]).length = start + 1 := by
            simp [hBlen]
          have hBkfl : fragsLen (frags.take start ++ [k]) = rs := by
            rw [fragsLen_append, hfb]
            simp only [fragsLen]
            omega
          have hpre2 : ∀ j, j < (frags.take start ++ [k]).length →
              fragsLen ((frags.take start ++ [k]).take (j + 1)) < re := by
            intro j hj
            rw [hBklen] at hj
            rcases Nat.lt_or_ge j start with hjs | hjs
            · rw [take_append_le _ _ (j + 1) (by omega), List.take_take,
                Nat.min_eq_left (by omega)]
              have := hbs j hjs
              omega
            · have hj' : j = start := by omega
              rw [hj', show start + 1 = (frags.take start ++ [k]).length by omega,
                List.take_length, hBkfl]
              omega
          have hfio2 : fioFrags (frags.take start ++ k ::
              TextRange.Decoration (Decorations.with_len face (re - rs)) ::
              (ke.toList ++ frags.drop (stop + 1))) re = some (start + 1, rs) := by
            rw [hassoc]
            have hstops := fio_stops (frags.take start ++ [k])
              (TextRange.Decoration (Decorations.with_len face (re - rs)))
              (ke.toList ++ frags.drop (stop + 1)) re hpre2
              (by rw [hBkfl, with_len_len]; omega)
            rw [hBklen, hBkfl] at hstops
            exact hstops
          have hg1 : (frags.take start ++ k ::
              TextRange.Decoration (Decorations.with_len face (re - rs)) ::
              (ke.toList ++ frags.drop (stop + 1))).get? start = some k := by
            have hgc := get?_append_cons (frags.take start) k
              (TextRange.Decoration (Decorations.with_len face (re - rs)) ::
                (ke.toList ++ frags.drop (stop + 1)))
            rw [hBlen] at hgc
            exact hgc
          have hg2 : (frags.take start ++ k ::
              TextRange.Decoration (Decorations.with_len face (re - rs)) ::
              (ke.toList ++ frags.drop (stop + 1))).get? (start + 1)
              = some (TextRange.Decoration (Decorations.with_len face (re - rs))) := by
            rw [hassoc]
            have hgc := get?_append_cons (frags.take start ++ [k])
              (TextRange.Decoration (Decorations.with_len face (re - rs)))
              (ke.toList ++ frags.drop (stop + 1))
            rw [hBklen] at hgc
            exact hgc
          have hks2 : k.keep_start (rs - so) = some (some k) := by
            rw [← hklen]
            exact keep_start_self hkgood
          have hke2 : (TextRange.Decoration (Decorations.with_len face (re - rs))).keep_end
              (re - rs) = some none :=
            keep_end_high _ _ (by rw [with_len_len])
          have htake : (frags.take start ++ k ::
              TextRange.Decoration (Decorations.with_len face (re - rs)) ::
              (ke.toList ++ frags.drop (stop + 1))).take start = frags.take start := by
            rw [take_append_le _ _ start (by omega), List.take_take, Nat.min_self]
          have hdrop : (frags.take start ++ k ::
              TextRange.Decoration (Decorations.with_len face (re - rs)) ::
              (ke.toList ++ frags.drop (stop + 1))).drop (start + 2)
              = ke.toList ++ frags.drop (stop + 1) := by
            rw [hassoc, show start + 2 = (frags.take start ++ [k]).length + 1 by omega,
              drop_append_length]
            rfl
          have hset : t1.set face rs re = some t1 := by
            rw [ht1]
            rw [set_ne_general amb face _ rs re start so (start + 1) rs hfio1 hfio2 (by omega)]
            rw [setGeneral, if_neg (by omega)]
            simp only [hg1, hg2, hks2, hke2, htake, hdrop]
            simp
          exact ⟨t1, hset, rfl⟩
        | none =>
          have hzero : rs - so = 0 := keep_start_none_zero fs (rs - so) hks
          have hstart0 : start = 0 := by
            by_contra hc
            have := hbs (start - 1) (by omega)
            rw [show start - 1 + 1 = start by omega] at this
            omega
          have hso0 : so = 0 := by
            rw [hso, hstart0]
            simp [fragsLen]
          have hrs0 : rs = 0 := by omega
          have ht1 : t1 = .mk amb
              (TextRange.Decoration (Decorations.with_len face (re - rs)) ::
                (ke.toList ++ frags.drop (stop + 1))) := by
            rw [← h', hstart0]
            simp
          have h1 : fioFrags (TextRange.Decoration (Decorations.with_len face (re - rs)) ::
              (ke.toList ++ frags.drop (stop + 1))) rs = some (0, 0) := by
            simp only [fioFrags]
            rw [if_pos (by rw [with_len_len]; omega)]
          have h2 : fioFrags (TextRange.Decoration (Decorations.with_len face (re - rs)) ::
              (ke.toList ++ frags.drop (stop + 1))) re = some (0, 0) := by
            simp only [fioFrags]
            rw [if_pos (by rw [with_len_len]; omega)]
          have hi1 : fioFrags [TextRange.Range (F := F) (re - rs)] rs = some (0, 0) := by
            simp only [fioFrags]
            rw [if_pos (by simp only [TextRange.len]; omega)]
          have hi2 : fioFrags [TextRange.Range (F := F) (re - rs)] re = some (0, 0) := by
            simp only [fioFrags]
            rw [if_pos (by simp only [TextRange.len]; omega)]
          have hrec : (Decorations.with_len face (re - rs)).set face rs re
              = some (.mk face [.Decoration (Decorations.with_len face (re - rs))]) := by
            rw [Decorations.with_len,
              set_eq_not_dec_general face face [TextRange.Range (re - rs)] rs re 0 0 0 hi1 hi2
                (fun d hd => by simp at hd)]
            rw [setGeneral, if_neg (by omega)]
            simp only [List.get?_cons_zero]
            rw [show rs - 0 = 0 by omega, keep_start_zero,
              keep_end_high _ _ (by simp only [TextRange.len]; omega)]
            simp [Decorations.with_len]
          have hset : t1.set face rs re = some (.mk amb
              (TextRange.Decoration (.mk face
                  [.Decoration (Decorations.with_len face (re - rs))]) ::
                (ke.toList ++ frags.drop (stop + 1)))) := by
            rw [ht1]
            rw [set_fast_ok amb face _ rs re 0 0 0 (Decorations.with_len face (re - rs))
              (.mk face [.Decoration (Decorations.with_len face (re - rs))]) h1 h2
              (by simp) hrec]
            simp
          refine ⟨_, hset, ?_⟩
          rw [ht1]
          simp [Decorations.flatten, fragsFlatten, Decorations.with_len]

theorem set_idem_aux {F : Type} : ∀ (n : Nat) (t : Decorations F), sizeOf t ≤ n →
    ∀ (face : F) (rs re : Nat) (t1 : Decorations F), rs < re → t.set face rs re = some t1 →
    ∃ t2, t1.set face rs re = some t2 ∧ t2.flatten = t1.flatten := by
  intro n
  induction n with
  | zero =>
    intro t hsz
    exfalso
    cases t with
    | mk f frags => simp only [Decorations.mk.sizeOf_spec] at hsz; omega
  | succ n ih =>
    intro t hsz face rs re t1 hlt hset
    cases t with
    | mk amb frags =>
      cases hf1 : fioFrags frags rs with
      | none => rw [set_fio_rs_none amb face frags rs re hf1] at hset; cases hset
      | some p1 =>
        obtain ⟨start, so⟩ := p1
        cases hf2 : fioFrags frags re with
        | none => rw [set_fio_re_none amb face frags rs re start so hf1 hf2] at hset; cases hset
        | some p2 =>
          obtain ⟨stop, eo⟩ := p2
          by_cases hss : start = stop
          · subst hss
            obtain ⟨fs, hgs, _, _, _, _⟩ := fio_spec frags rs start so hf1
            cases fs with
            | Range m =>
              rw [set_eq_not_dec_general amb face frags rs re start so eo hf1 hf2
                (fun d hd => by rw [hgs] at hd; cases hd)] at hset
              exact setGeneral_idem amb face frags rs re start so start eo t1 hf1 hf2 hlt hset
            | Decoration d =>
              cases hrec : d.set face rs re with
              | none =>
                rw [set_fast_panic amb face frags rs re start so eo d hf1 hf2 hgs hrec] at hset
                cases hset
              | some d1 =>
                rw [set_fast_ok amb face frags rs re start so eo d d1 hf1 hf2 hgs hrec] at hset
                injection hset with h'
                have hdsz : sizeOf d ≤ n := by
                  have h1 := List.sizeOf_lt_of_mem (List.get?_mem hgs)
                  simp only [TextRange.Decoration.sizeOf_spec, Decorations.mk.sizeOf_spec]
                    at hsz h1
                  omega
                obtain ⟨d2, hd2set, hd2fl⟩ := ih d hdsz face rs re d1 hlt hrec
                have hdlen : (TextRange.Decoration d1).len = (TextRange.Decoration d).len := by
                  have := set_len (sizeOf d) d le_rfl face rs re d1 hrec
                  simp only [TextRange.len]
                  omega
                have hcong1 : fioFrags (frags.set start (.Decoration d1)) rs
                    = some (start, so) := by
                  rw [fio_set_congr frags start (.Decoration d) (.Decoration d1) rs hgs hdlen]
                  exact hf1
                have hcong2 : fioFrags (frags.set start (.Decoration d1)) re
                    = some (start, eo) := by
                  rw [fio_set_congr frags start (.Decoration d) (.Decoration d1) re hgs hdlen]
                  exact hf2
                have hg1 : (frags.set start (.Decoration d1)).get? start
                    = some (.Decoration d1) := get?_set_self frags start _ _ hgs
                have hset2 : t1.set face rs re = some (.mk amb
                    ((frags.set start (.Decoration d1)).set start (.Decoration d2))) := by
                  rw [← h']
                  exact set_fast_ok amb face _ rs re start so eo d1 d2 hcong1 hcong2 hg1 hd2set
                refine ⟨_, hset2, ?_⟩
                rw [← h']
                simp only [Decorations.flatten]
                exact fragsFlatten_set_congr (frags.set start (.Decoration d1)) start
                  (.Decoration d1) (.Decoration d2) amb hg1
                  (by simp [fragsFlatten, hd2fl])
          · rw [set_ne_general amb face frags rs re start so stop eo hf1 hf2 hss] at hset
            exact setGeneral_idem amb face frags rs re start so stop eo t1 hf1 hf2 hlt hset

/-- C6 counterexample: for the in-bounds zero-length range `3..3` on a
length-10 tree, applying `set(Star, 3..3)` twice does not yield a
flatten-equal result to applying it once: a second zero-length `Star` run is
inserted. -/
theorem C6_zero_width_counterexample :
    ((((Decorations.new Face.Default).append .Default 10).set .Star 3 3).bind
        (fun t => t.set .Star 3 3)).map Decorations.flatten
      = some [(.Default, 3), (.Star, 0), (.Star, 0), (.Default, 7)]
    ∧ (((Decorations.new Face.Default).append .Default 10).set .Star 3 3).map
        Decorations.flatten
      = some [(.Default, 3), (.Star, 0), (.Default, 7)]
    ∧ ((((Decorations.new Face.Default).append .Default 10).set .Star 3 3).bind
        (fun t => t.set .Star 3 3)).map Decorations.flatten
      ≠ (((Decorations.new Face.Default).append .Default 10).set .Star 3 3).map
        Decorations.flatten := by
  refine ⟨?_, ?_, ?_⟩ <;>
    simp [Decorations.new, Decorations.append, Decorations.set, setGeneral, fioFrags,
      TextRange.len, Decorations.len, fragsLen, TextRange.keep_start, TextRange.keep_end,
      Decorations.with_len, Decorations.flatten, fragsFlatten, List.getLast?, List.getLast,
      Decorations.face]

/-- C6 as amended: for every tree, face, and in-bounds *non-empty* range
(`start < end ≤ length`), if `set(f, r)` returns normally then calling it a
second time also returns normally and yields a flatten-equal tree. -/
theorem C6_set_idempotent {F : Type} (t : Decorations F) (face : F) (rs re : Nat)
    (t1 : Decorations F) (hlt : rs < re) (hbound : re ≤ t.len)
    (h : t.set face rs re = some t1) :
    (t1.set face rs re).map Decorations.flatten = some t1.flatten := by
  obtain ⟨t2, hset, hfl⟩ := set_idem_aux (sizeOf t) t le_rfl face rs re t1 hlt h
  rw [hset]
  simpa using hfl

/-- C6 witness: `set(Star, 3..7)` on the length-10 tree, applied a second
time, is flatten-equal to the single application. -/
theorem C6_set_idempotent_witness :
    ((Decorations.mk Face.Default
        [.Range 3, .Decoration (.mk .Star [.Range 4]), .Range 3]).set .Star 3 7).map
      Decorations.flatten
      = some (Decorations.mk Face.Default
          [.Range 3, .Decoration (.mk .Star [.Range 4]), .Range 3]).flatten :=
  C6_set_idempotent ((Decorations.new Face.Default).append .Default 10) .Star 3 7
    (Decorations.mk Face.Default [.Range 3, .Decoration (.mk .Star [.Range 4]), .Range 3])
    (by omega)
    (by simp [Decorations.new, Decorations.append, Decorations.len, fragsLen, TextRange.len,
      List.getLast?])
    (by simp [Decorations.new, Decorations.append, Decorations.set, setGeneral, fioFrags,
      TextRange.len, Decorations.len, fragsLen, TextRange.keep_start, TextRange.keep_end,
      Decorations.with_len, List.getLast?, List.getLast, Decorations.face])
